import Mathlib

/-!
Verification development for the vibe-coding-rules repository.

The repository's core is a hand-rolled frontmatter parser
(`scripts/build-guides-data.mjs` / `parseFrontmatter`), a markdown renderer
built from ordered regular-expression substitutions (`docs/app.js` /
`parseMarkdown`), a directory-walking snapshot builder (`buildGuidesData`),
and a minimal static file server.  Everything below is a shallow embedding
of those functions: strings are modelled as `String` / `List Char`, each
regular-expression pass is implemented as an explicit scan with the same
matching semantics (anchoring, greediness, laziness, global continuation
after each match), and the fallible filesystem operations return `Except`.
Line-based passes are modelled for LF line endings (the multiline `$` of
JS also fires before a lone `\r`, which no document here contains), and
the JS whitespace classes are modelled by their ASCII members.
-/

/-- JS whitespace class (the characters relevant to `trim`, `trimStart`
and the regex class `\s` for the inputs this repository handles). -/
def jsSpace (c : Char) : Bool :=
  c = ' ' || c = '\t' || c = '\n' || c = '\r' || c = '\x0b' || c = '\x0c'

/-- JS `String.prototype.trimStart` on a character list. -/
def jsTrimStartL (s : List Char) : List Char := s.dropWhile jsSpace

/-- JS `String.prototype.trimEnd` on a character list. -/
def jsTrimEndL (s : List Char) : List Char := (s.reverse.dropWhile jsSpace).reverse

/-- JS `String.prototype.trim` on a character list. -/
def jsTrimL (s : List Char) : List Char := jsTrimEndL (jsTrimStartL s)

/-- JS `String.prototype.endsWith`, implemented structurally over the
character list. -/
def strEndsWith (s suffix : String) : Bool := suffix.data.isSuffixOf s.data

/-- JS `String.prototype.startsWith`, implemented structurally over the
character list. -/
def strStartsWith (s pre : String) : Bool := pre.data.isPrefixOf s.data

/-- Index of the first occurrence of `pat` as a contiguous sublist of `s`
(JS `String.prototype.indexOf`). -/
def findSub (pat : List Char) : List Char → Option Nat
  | [] => if pat.isPrefixOf ([] : List Char) then some 0 else none
  | c :: rest =>
    if pat.isPrefixOf (c :: rest) then some 0
    else (findSub pat rest).map (· + 1)

/-- End position (index just past the match) of the last occurrence of
`pat` as a contiguous sublist of `s`. -/
def lastSubEnd (pat : List Char) : List Char → Option Nat
  | [] => if pat.isPrefixOf ([] : List Char) then some pat.length else none
  | c :: rest =>
    match lastSubEnd pat rest with
    | some n => some (n + 1)
    | none => if pat.isPrefixOf (c :: rest) then some pat.length else none

/-- Split a character list at every occurrence of the character `sep`
(JS `String.prototype.split` with a single-character separator). -/
def splitOnChar (sep : Char) : List Char → List (List Char)
  | [] => [[]]
  | c :: rest =>
    if c = sep then [] :: splitOnChar sep rest
    else
      match splitOnChar sep rest with
      | [] => [[c]]
      | seg :: segs => (c :: seg) :: segs

/-- Apply `f` to every `\n`-separated line, preserving the separators.
Models a JS per-line regex replacement done with the `m` flag whose
replacement text contains no newline. -/
def mapLines (f : List Char → List Char) (s : List Char) : List Char :=
  List.intercalate ['\n'] ((splitOnChar '\n' s).map f)

/-- The backtick character. -/
def backquote : Char := Char.ofNat 96

/-- The three-character escape applied to fenced code block content in
`parseMarkdown`: `&` → `&amp;`, `<` → `&lt;`, `>` → `&gt;` (the source
performs three sequential full-string replaces in this order; since the
later replacements introduce none of the earlier characters, the
composite is this single pass). -/
def escapeHtmlL (s : List Char) : List Char :=
  s.foldr
    (fun c acc =>
      (if c = '&' then "&amp;".data
       else if c = '<' then "&lt;".data
       else if c = '>' then "&gt;".data
       else [c]) ++ acc) []

/-- JS regex `\w` (ASCII word character). -/
def isWordChar (c : Char) : Bool := c.isAlphanum || c = '_'

/-- Try to match the fenced-code-block regex
`/```(\w+)?\n([\s\S]*?)```/` at the head of `s`.  On success returns the
(lazily matched) code content and the remainder after the closing fence. -/
def tryFence (s : List Char) : Option (List Char × List Char) :=
  match s with
  | b1 :: b2 :: b3 :: rest =>
    if b1 = backquote && b2 = backquote && b3 = backquote then
      let afterLang := rest.dropWhile isWordChar
      match afterLang with
      | '\n' :: rest2 =>
        match findSub [backquote, backquote, backquote] rest2 with
        | some i => some (rest2.take i, rest2.drop (i + 3))
        | none => none
      | _ => none
    else none
  | _ => none

/-- The first `parseMarkdown` pass: global replacement of the fenced
code block regex, each match replaced by `<pre><code>` + escaped content
+ `</code></pre>`.  `fuel` bounds the number of scan steps; the wrapper
passes the input length, which always suffices. -/
def codeBlockGo : Nat → List Char → List Char
  | 0, s => s
  | _ + 1, [] => []
  | fuel + 1, c :: rest =>
    match tryFence (c :: rest) with
    | some (code, rest2) =>
      "<pre><code>".data ++ escapeHtmlL code ++ "</code></pre>".data ++
        codeBlockGo fuel rest2
    | none => c :: codeBlockGo fuel rest

/-- Stage 1 of `parseMarkdown`: fenced code block extraction. -/
def codeBlockPass (s : List Char) : List Char := codeBlockGo s.length s

/-- One heading pass `/^#{k} (.*$)/gim` → `<hk>$1</hk>`, applied per line. -/
def headerPass (k : Nat) (openTag closeTag : List Char) (s : List Char) : List Char :=
  mapLines
    (fun line =>
      if (List.replicate k '#' ++ [' ']).isPrefixOf line then
        openTag ++ line.drop (k + 1) ++ closeTag
      else line) s

/-- All six heading passes, h6 first (as in the source, to avoid a shorter
prefix prematurely matching a longer one). -/
def headersStage (s : List Char) : List Char :=
  headerPass 1 "<h1>".data "</h1>".data
    (headerPass 2 "<h2>".data "</h2>".data
      (headerPass 3 "<h3>".data "</h3>".data
        (headerPass 4 "<h4>".data "</h4>".data
          (headerPass 5 "<h5>".data "</h5>".data
            (headerPass 6 "<h6>".data "</h6>".data s)))))

/-- Horizontal-rule pass `/^---$/gim` or `/^\*\*\*$/gim` → `<hr>`:
a line consisting exactly of the given marker becomes `<hr>`. -/
def hrPass (marker : List Char) (s : List Char) : List Char :=
  mapLines (fun line => if line = marker then "<hr>".data else line) s

/-- Blockquote pass `/^> (.*$)/gim` → `<blockquote>$1</blockquote>`. -/
def blockquotePass (s : List Char) : List Char :=
  mapLines
    (fun line =>
      if ('>' :: [' ']).isPrefixOf line then
        "<blockquote>".data ++ line.drop 2 ++ "</blockquote>".data
      else line) s

/-- Try the ordered-list item regex `/^(\d+)\.\s+(.*$)/` at the head of
`s` (which must be a line start).  `\s+` is greedy and may cross
newlines; `(.*$)` then captures to the end of the current line.  Returns
the captured text and the remainder (beginning at the line's newline). -/
def tryOrderedItem (s : List Char) : Option (List Char × List Char) :=
  let digits := s.takeWhile Char.isDigit
  if digits = [] then none
  else
    match s.drop digits.length with
    | '.' :: r2 =>
      let ws := r2.takeWhile jsSpace
      if ws = [] then none
      else
        let r3 := r2.drop ws.length
        some (r3.takeWhile (· ≠ '\n'), r3.dropWhile (· ≠ '\n'))
    | _ => none

/-- Try the unordered-list item regex `/^[-*+]\s+(.*$)/` at the head of `s`. -/
def tryUnorderedItem (s : List Char) : Option (List Char × List Char) :=
  match s with
  | c :: r2 =>
    if c = '-' || c = '*' || c = '+' then
      let ws := r2.takeWhile jsSpace
      if ws = [] then none
      else
        let r3 := r2.drop ws.length
        some (r3.takeWhile (· ≠ '\n'), r3.dropWhile (· ≠ '\n'))
    else none
  | [] => none

/-- Global scan for a `^`-anchored (multiline) item regex: matches are
attempted only at line starts; each match is replaced by
`<li>` + captured text + `</li>` and scanning resumes after the match. -/
def listItemGo (tryItem : List Char → Option (List Char × List Char)) :
    Nat → Bool → List Char → List Char
  | 0, _, s => s
  | _ + 1, _, [] => []
  | fuel + 1, atStart, c :: rest =>
    if atStart then
      match tryItem (c :: rest) with
      | some (text, rest2) =>
        "<li>".data ++ text ++ "</li>".data ++ listItemGo tryItem fuel false rest2
      | none => c :: listItemGo tryItem fuel (c = '\n') rest
    else c :: listItemGo tryItem fuel (c = '\n') rest

/-- Ordered-list item pass `/^(\d+)\.\s+(.*$)/gim` → `<li>$2</li>`. -/
def orderedPass (s : List Char) : List Char :=
  listItemGo tryOrderedItem s.length true s

/-- Unordered-list item pass `/^[-*+]\s+(.*$)/gim` → `<li>$1</li>`. -/
def unorderedPass (s : List Char) : List Char :=
  listItemGo tryUnorderedItem s.length true s

/-- Try one iteration of the group `(<li>.*<\/li>\n?)` at the head of
`s`: `<li>`, then (greedy `.*`, which cannot cross a newline) up to the
last `</li>` on the current line, then an optional newline.  Returns the
matched text and the remainder. -/
def tryLiUnit (s : List Char) : Option (List Char × List Char) :=
  if "<li>".data.isPrefixOf s then
    let line := s.takeWhile (· ≠ '\n')
    let rest := s.dropWhile (· ≠ '\n')
    match lastSubEnd "</li>".data line with
    | some n =>
      let consumed := line.take n
      let afterInLine := line.drop n
      if afterInLine = [] then
        match rest with
        | '\n' :: r2 => some (consumed ++ ['\n'], r2)
        | _ => some (consumed, rest)
      else some (consumed, afterInLine ++ rest)
    | none => none
  else none

/-- Accumulate as many consecutive `(<li>.*<\/li>\n?)` iterations as
possible (the `+` quantifier). -/
def liRunGo : Nat → List Char → List Char × List Char
  | 0, s => ([], s)
  | fuel + 1, s =>
    match tryLiUnit s with
    | some (m, rest) =>
      let (ms, r2) := liRunGo fuel rest
      (m ++ ms, r2)
    | none => ([], s)

/-- Try the full run regex `(<li>.*<\/li>\n?)+` at the head of `s`. -/
def tryLiRun (s : List Char) : Option (List Char × List Char) :=
  match tryLiUnit s with
  | none => none
  | some (m, rest) =>
    let (ms, r2) := liRunGo rest.length rest
    some (m ++ ms, r2)

/-- The source's `/^\d+\./.test(match)` check on a run of list items:
true iff the string starts with one or more digits followed by a dot. -/
def startsDigitDot (m : List Char) : Bool :=
  let d := m.takeWhile Char.isDigit
  decide (d ≠ []) && decide ((m.drop d.length).headI = '.') && decide (m.drop d.length ≠ [])

/-- Global scan replacing each maximal run of list items with
`<tag>` + run + `</tag>`, where `tag` is `ol` iff the *matched text*
starts with a digit-dot pattern (the matched text always starts with
`<li>`, so this test is in fact always false). -/
def liWrapGo : Nat → List Char → List Char
  | 0, s => s
  | _ + 1, [] => []
  | fuel + 1, c :: rest =>
    match tryLiRun (c :: rest) with
    | some (m, r2) =>
      let tag := if startsDigitDot m then "ol".data else "ul".data
      '<' :: tag ++ ['>'] ++ m ++ ('<' :: '/' :: tag ++ ['>']) ++ liWrapGo fuel r2
    | none => c :: liWrapGo fuel rest

/-- Wrap-consecutive-list-items pass `/(<li>.*<\/li>\n?)+/g`. -/
def liWrapPass (s : List Char) : List Char := liWrapGo s.length s

/-- Lazy search for the closing delimiter of an inline construct:
first occurrence of `delim`, with no newline allowed before it (the
content is matched by `(.*?)`, and `.` does not match `\n`).  Returns the
content and the remainder after the delimiter. -/
def findCloser (delim : List Char) : List Char → Option (List Char × List Char)
  | [] => if delim.isPrefixOf ([] : List Char) then some ([], []) else none
  | c :: rest =>
    if delim.isPrefixOf (c :: rest) then some ([], (c :: rest).drop delim.length)
    else if c = '\n' then none
    else (findCloser delim rest).map (fun p => (c :: p.1, p.2))

/-- Global emphasis pass for `/delim(.*?)delim/g` → `pre$1post`. -/
def delimGo (delim pre post : List Char) : Nat → List Char → List Char
  | 0, s => s
  | _ + 1, [] => []
  | fuel + 1, c :: rest =>
    if delim.isPrefixOf (c :: rest) then
      match findCloser delim ((c :: rest).drop delim.length) with
      | some (content, r2) => pre ++ content ++ post ++ delimGo delim pre post fuel r2
      | none => c :: delimGo delim pre post fuel rest
    else c :: delimGo delim pre post fuel rest

/-- Emphasis pass wrapper. -/
def delimPass (delim pre post : List Char) (s : List Char) : List Char :=
  delimGo delim pre post s.length s

/-- Try the inline-code regex ``/`([^`]+)`/`` at the head of `s`:
a backtick, one or more non-backtick characters (greedy; may include
newlines), a closing backtick. -/
def tryInlineCode (s : List Char) : Option (List Char × List Char) :=
  match s with
  | c :: rest =>
    if c = backquote then
      let content := rest.takeWhile (· ≠ backquote)
      if content = [] then none
      else
        match rest.drop content.length with
        | b :: r3 => if b = backquote then some (content, r3) else none
        | [] => none
    else none
  | [] => none

/-- Global inline-code pass. -/
def inlineCodeGo : Nat → List Char → List Char
  | 0, s => s
  | _ + 1, [] => []
  | fuel + 1, c :: rest =>
    match tryInlineCode (c :: rest) with
    | some (content, r2) =>
      "<code>".data ++ content ++ "</code>".data ++ inlineCodeGo fuel r2
    | none => c :: inlineCodeGo fuel rest

/-- Inline-code pass wrapper. -/
def inlineCodePass (s : List Char) : List Char := inlineCodeGo s.length s

/-- Try the link regex `/\[([^\]]+)\]\(([^)]+)\)/` at the head of `s`. -/
def tryLink (s : List Char) : Option (List Char × List Char × List Char) :=
  match s with
  | '[' :: rest =>
    let text := rest.takeWhile (· ≠ ']')
    if text = [] then none
    else
      match rest.drop text.length with
      | ']' :: '(' :: r2 =>
        let url := r2.takeWhile (· ≠ ')')
        if url = [] then none
        else
          match r2.drop url.length with
          | ')' :: r3 => some (text, url, r3)
          | _ => none
      | _ => none
  | _ => none

/-- Global link pass, replacement
`<a href="$2" target="_blank" rel="noopener noreferrer">$1</a>`. -/
def linkGo : Nat → List Char → List Char
  | 0, s => s
  | _ + 1, [] => []
  | fuel + 1, c :: rest =>
    match tryLink (c :: rest) with
    | some (text, url, r2) =>
      "<a href=\"".data ++ url ++ "\" target=\"_blank\" rel=\"noopener noreferrer\">".data ++
        text ++ "</a>".data ++ linkGo fuel r2
    | none => c :: linkGo fuel rest

/-- Link pass wrapper. -/
def linkPass (s : List Char) : List Char := linkGo s.length s

/-- Try the image regex `/!\[([^\]]*)\]\(([^)]+)\)/` at the head of `s`
(the alt text may be empty). -/
def tryImage (s : List Char) : Option (List Char × List Char × List Char) :=
  match s with
  | '!' :: '[' :: rest =>
    let alt := rest.takeWhile (· ≠ ']')
    match rest.drop alt.length with
    | ']' :: '(' :: r2 =>
      let url := r2.takeWhile (· ≠ ')')
      if url = [] then none
      else
        match r2.drop url.length with
        | ')' :: r3 => some (alt, url, r3)
        | _ => none
    | _ => none
  | _ => none

/-- Global image pass, replacement `<img src="$2" alt="$1">`. -/
def imageGo : Nat → List Char → List Char
  | 0, s => s
  | _ + 1, [] => []
  | fuel + 1, c :: rest =>
    match tryImage (c :: rest) with
    | some (alt, url, r2) =>
      "<img src=\"".data ++ url ++ "\" alt=\"".data ++ alt ++ "\">".data ++ imageGo fuel r2
    | none => c :: imageGo fuel rest

/-- Image pass wrapper. -/
def imagePass (s : List Char) : List Char := imageGo s.length s

/-- Split on `/\n\n+/` (each separator is a maximal run of at least two
newlines), as in `html.split(/\n\n+/)`. -/
def splitBlocksGo : Nat → List Char → List (List Char)
  | 0, s => [s]
  | fuel + 1, s =>
    match findSub ['\n', '\n'] s with
    | none => [s]
    | some i =>
      s.take i :: splitBlocksGo fuel ((s.drop i).dropWhile (· = '\n'))

/-- Block splitter wrapper. -/
def splitBlocks (s : List Char) : List (List Char) := splitBlocksGo s.length s

/-- Case-insensitive prefix test (`pat` is given in lowercase). -/
def ciPrefix : List Char → List Char → Bool
  | [], _ => true
  | _ :: _, [] => false
  | p :: ps, c :: cs => p = c.toLower && ciPrefix ps cs

/-- The block-element test `/^<(h[1-6]|pre|ul|ol|blockquote|hr|div)/i`. -/
def isBlockElem (t : List Char) : Bool :=
  match t with
  | '<' :: r =>
    (match r with
     | c :: d :: _ =>
       c.toLower = 'h' &&
         (d = '1' || d = '2' || d = '3' || d = '4' || d = '5' || d = '6')
     | _ => false) ||
    ciPrefix "pre".data r || ciPrefix "ul".data r || ciPrefix "ol".data r ||
    ciPrefix "blockquote".data r || ciPrefix "hr".data r || ciPrefix "div".data r
  | _ => false

/-- `block.replace(/\n/g, "<br>")`. -/
def nlToBr (b : List Char) : List Char :=
  b.foldr (fun c acc => (if c = '\n' then "<br>".data else [c]) ++ acc) []

/-- The per-block mapper of the block-assembly stage: trim, drop empty
blocks, keep blocks already starting with a structural element, wrap the
rest in `<p>…</p>` with inner newlines turned into `<br>`. -/
def blockMap (b : List Char) : List Char :=
  let t := jsTrimL b
  if t = [] then []
  else if isBlockElem t then t
  else "<p>".data ++ nlToBr t ++ "</p>".data

/-- Block-assembly stage: split into blocks, map, re-join with `\n`. -/
def blocksStage (s : List Char) : List Char :=
  List.intercalate ['\n'] ((splitBlocks s).map blockMap)

/-- Global literal replacement of `pat` (nonempty) by `rep`
(JS `String.prototype.replace` with a global literal-text regex). -/
def replaceAllGo (pat rep : List Char) : Nat → List Char → List Char
  | 0, s => s
  | _ + 1, [] => []
  | fuel + 1, c :: rest =>
    if pat.isPrefixOf (c :: rest) then
      rep ++ replaceAllGo pat rep fuel ((c :: rest).drop pat.length)
    else c :: replaceAllGo pat rep fuel rest

/-- Literal global replacement wrapper. -/
def replaceAll (pat rep s : List Char) : List Char := replaceAllGo pat rep s.length s

/-- Try the cleanup regex `/<p>(<[^>]+>)<\/p>/` at one position:
a paragraph wrapper whose sole content is one other tag. -/
def tryUnwrapP (s : List Char) : Option (List Char × List Char) :=
  if "<p>".data.isPrefixOf s then
    match s.drop 3 with
    | '<' :: r =>
      let inner := r.takeWhile (· ≠ '>')
      if inner = [] then none
      else
        match r.drop inner.length with
        | '>' :: r2 =>
          if "</p>".data.isPrefixOf r2 then
            some ('<' :: inner ++ ['>'], r2.drop 4)
          else none
        | _ => none
    | _ => none
  else none

/-- Global pass for `/<p>(<[^>]+>)<\/p>/g` → `$1`. -/
def unwrapPGo : Nat → List Char → List Char
  | 0, s => s
  | _ + 1, [] => []
  | fuel + 1, c :: rest =>
    match tryUnwrapP (c :: rest) with
    | some (tag, r2) => tag ++ unwrapPGo fuel r2
    | none => c :: unwrapPGo fuel rest

/-- Cleanup pass 2 wrapper. -/
def unwrapPPass (s : List Char) : List Char := unwrapPGo s.length s

/-- `parseMarkdown` from `docs/app.js`, on character lists: the full
ordered substitution pipeline. -/
def parseMarkdownL (s : List Char) : List Char :=
  if s = [] then []
  else
    unwrapPPass
      (replaceAll "<p></p>".data []
        (blocksStage
          (imagePass
            (linkPass
              (inlineCodePass
                (delimPass ['_'] "<em>".data "</em>".data
                  (delimPass ['*'] "<em>".data "</em>".data
                    (delimPass ['_', '_'] "<strong>".data "</strong>".data
                      (delimPass ['*', '*'] "<strong>".data "</strong>".data
                        (delimPass ['*', '*', '*'] "<strong><em>".data "</em></strong>".data
                          (liWrapPass
                            (unorderedPass
                              (orderedPass
                                (blockquotePass
                                  (hrPass "***".data
                                    (hrPass "---".data
                                      (headersStage
                                        (codeBlockPass s))))))))))))))))))

/-- `parseMarkdown` on strings. -/
def parseMarkdown (s : String) : String := ⟨parseMarkdownL s.data⟩

/-! ## Frontmatter parser (`parseFrontmatter` in `scripts/build-guides-data.mjs`) -/

/-- A frontmatter value: the JS object holds strings, booleans, or
arrays of strings. -/
inductive FmValue
  | str (s : String)
  | bool (b : Bool)
  | list (items : List String)
deriving DecidableEq, Repr

/-- JS object assignment `fm[k] = v`: replace the existing binding for
`k`, else append (key insertion order preserved). -/
def fmSet : List (String × FmValue) → String → FmValue → List (String × FmValue)
  | [], k, v => [(k, v)]
  | (k0, v0) :: rest, k, v =>
    if k0 = k then (k0, v) :: rest else (k0, v0) :: fmSet rest k v

/-- JS property read `fm[k]` (`none` models `undefined`). -/
def fmGet (m : List (String × FmValue)) (k : String) : Option FmValue :=
  (m.find? (fun p => p.1 = k)).map (·.2)

/-- `if (!Array.isArray(fm[k])) fm[k] = []; fm[k].push(v)`. -/
def fmPush (m : List (String × FmValue)) (k : String) (v : String) :
    List (String × FmValue) :=
  match fmGet m k with
  | some (.list items) => fmSet m k (.list (items ++ [v]))
  | _ => fmSet m k (.list [v])

/-- A single or double quote. -/
def isQuote (c : Char) : Bool := c = '"' || c = '\''

/-- `value.replace(/^["']|["']$/g, "")`: remove one leading and one
trailing quote character, independently of each other. -/
def stripQuotesL (s : List Char) : List Char :=
  let s1 :=
    match s with
    | c :: rest => if isQuote c then rest else c :: rest
    | [] => []
  match s1.reverse with
  | c :: r => if isQuote c then r.reverse else s1
  | [] => s1

/-- Split on the regex `/\r?\n/`. -/
def splitCRLF : List Char → List (List Char)
  | [] => [[]]
  | '\r' :: '\n' :: rest => [] :: splitCRLF rest
  | '\n' :: rest => [] :: splitCRLF rest
  | c :: rest =>
    match splitCRLF rest with
    | [] => [[c]]
    | seg :: segs => (c :: seg) :: segs

/-- One iteration of the frontmatter line loop.  State: the mapping so
far and the most recently opened list key (`currentKey`). -/
def fmLineStep (st : List (String × FmValue) × Option String) (line : List Char) :
    List (String × FmValue) × Option String :=
  let (fm, currentKey) := st
  let t := jsTrimL line
  if t = [] then (fm, currentKey)
  else if t.headI = '-' then
    match currentKey with
    | some k => (fmPush fm k ⟨stripQuotesL (jsTrimL (t.drop 1))⟩, currentKey)
    | none => (fm, currentKey)
  else
    match findSub [':'] line with
    | none => (fm, currentKey)
    | some i =>
      let key : String := ⟨jsTrimL (line.take i)⟩
      let value := stripQuotesL (jsTrimL (line.drop (i + 1)))
      if value = [] then (fmSet fm key (.list []), some key)
      else
        let v : FmValue :=
          if value = "true".data then .bool true
          else if value = "false".data then .bool false
          else .str ⟨value⟩
        (fmSet fm key v, none)

/-- Parse the text between the frontmatter delimiters. -/
def parseFmBlock (fmText : List Char) : List (String × FmValue) :=
  ((splitCRLF fmText).foldl fmLineStep ([], none)).1

/-- `content.startsWith("---")`. -/
def fmOpenL (s : List Char) : Bool := "---".data.isPrefixOf s

/-- `content.indexOf("\n---", 3)`. -/
def fmCloseIdx (s : List Char) : Option Nat :=
  (findSub "\n---".data (s.drop 3)).map (· + 3)

/-- `parseFrontmatter` from `scripts/build-guides-data.mjs`, on
character lists. -/
def parseFrontmatterL (s : List Char) : List (String × FmValue) × List Char :=
  if fmOpenL s then
    match fmCloseIdx s with
    | none => ([], s)
    | some endIndex =>
      let fmText := jsTrimL ((s.drop 3).take (endIndex - 3))
      let body := jsTrimStartL (s.drop (endIndex + 4))
      (parseFmBlock fmText, body)
  else ([], s)

/-- `parseFrontmatter` on strings. -/
def parseFrontmatter (s : String) : List (String × FmValue) × String :=
  let (fm, body) := parseFrontmatterL s.data
  (fm, ⟨body⟩)

/-! ## Guide construction and the build (`buildGuidesData`) -/

/-- Case-insensitive strip of a trailing `.mdc` (`/\.mdc$/i`). -/
def stripMdcSuffix (s : List Char) : List Char :=
  let n := s.length
  if 4 ≤ n && ((s.drop (n - 4)).map Char.toLower = ".mdc".data : Bool) then s.take (n - 4)
  else s

/-- Capitalize the first character of a word
(`word.charAt(0).toUpperCase() + word.slice(1)`). -/
def capitalizeWord : List Char → List Char
  | [] => []
  | c :: rest => c.toUpper :: rest

/-- `titleize` from the build script. -/
def titleizeL (s : List Char) : List Char :=
  List.intercalate [' ']
    ((splitOnChar ' '
        ((stripMdcSuffix s).map (fun c => if c = '-' || c = '_' then ' ' else c))).map
      capitalizeWord)

/-- `titleize` on strings. -/
def titleize (s : String) : String := ⟨titleizeL s.data⟩

/-- A lowercase ASCII letter or digit (`[a-z0-9]`). -/
def isLowerAlnum (c : Char) : Bool := ('a' ≤ c && c ≤ 'z') || ('0' ≤ c && c ≤ '9')

/-- Collapse consecutive hyphens to one (so that a run of non-alphanumeric
characters, each already mapped to `-`, becomes a single `-` as the
regex `/[^a-z0-9]+/g` does). -/
def dedupDash : List Char → List Char
  | [] => []
  | [c] => [c]
  | c :: d :: rest =>
    if c = '-' && d = '-' then dedupDash (d :: rest) else c :: dedupDash (d :: rest)

/-- `text.replace(/^-|-$/g, "")`: drop one leading and one trailing hyphen. -/
def stripEdgeDash (s : List Char) : List Char :=
  let s1 :=
    match s with
    | '-' :: r => r
    | other => other
  match s1.reverse with
  | '-' :: r => r.reverse
  | _ => s1

/-- `slugify` from the build script. -/
def slugifyL (s : List Char) : List Char :=
  stripEdgeDash
    (dedupDash
      ((s.map Char.toLower).map (fun c => if isLowerAlnum c then c else '-')))

/-- An assembled guide record. -/
structure Guide where
  id : String
  title : String
  fileName : String
  frontmatter : List (String × FmValue)
  content : String
  alwaysApply : Bool
  globs : FmValue
deriving DecidableEq, Repr

/-- `frontmatter.alwaysApply === true || frontmatter.alwaysApply === "true"`. -/
def deriveAlwaysApply (fm : List (String × FmValue)) : Bool :=
  fmGet fm "alwaysApply" == some (FmValue.bool true) ||
    fmGet fm "alwaysApply" == some (FmValue.str "true")

/-- JS truthiness of a frontmatter value (an array is always truthy,
the empty string and `false` are falsy). -/
def jsTruthy : FmValue → Bool
  | .str s => decide (s ≠ "")
  | .bool b => b
  | .list _ => true

/-- `frontmatter.globs || []`. -/
def deriveGlobs (fm : List (String × FmValue)) : FmValue :=
  match fmGet fm "globs" with
  | none => .list []
  | some v => if jsTruthy v then v else .list []

/-- The per-file guide construction in `buildGuidesData`. -/
def mkGuide (file : String) (content : String) : Guide :=
  let (fm, body) := parseFrontmatter content
  { id := ⟨slugifyL (stripMdcSuffix file.data)⟩
    title := titleize file
    fileName := file
    frontmatter := fm
    content := body
    alwaysApply := deriveAlwaysApply fm
    globs := deriveGlobs fm }

/-- The sort comparator of `buildGuidesData`, as a `≤`-test
(`comparator a b ≤ 0`).  `lc` models the host-provided
`String.prototype.localeCompare`. -/
def guideLe (lc : String → String → Ordering) (a b : Guide) : Bool :=
  if a.fileName = "README.md" then true
  else if b.fileName = "README.md" then false
  else decide (lc a.title b.title ≠ Ordering.gt)

/-- `guides.sort(comparator)`: ECMAScript `Array.prototype.sort` is
required to be stable and to produce a `comparator`-sorted result, so it
is modelled by a stable merge sort. -/
def sortGuides (lc : String → String → Ordering) (gs : List Guide) : List Guide :=
  gs.mergeSort (guideLe lc)

/-- A statically configured collection ("stack"). -/
structure StackConfig where
  id : String
  name : String
  directory : String
  icon : String
  summary : String
  focus : String
deriving DecidableEq, Repr

/-- The `STACKS` configuration array of `buildGuidesData`. -/
def STACKS : List StackConfig :=
  [ { id := "typescript", name := "TypeScript", directory := "Typescript",
      icon := "icons/typescript.png",
      summary := "Type-safe JavaScript development",
      focus := "Type safety, code quality, best practices" },
    { id := "python", name := "Python", directory := "Python",
      icon := "icons/python.png",
      summary := "General Python development",
      focus := "Type safety, readability, best practices" },
    { id := "rust", name := "Rust", directory := "Rust",
      icon := "icons/rust.png",
      summary := "Systems programming with Rust",
      focus := "Memory safety, performance, zero-cost abstractions" },
    { id := "arduino-platformio", name := "Arduino + PlatformIO",
      directory := "Arduino + PlatformIO", icon := "icons/arduino.png",
      summary := "Embedded systems & microcontrollers",
      focus := "Hardware abstraction, memory management, interrupts, safety" },
    { id := "python-fastapi", name := "Python + FastAPI",
      directory := "Python + FastAPI", icon := "icons/fastapi.png",
      summary := "Backend API development with FastAPI",
      focus := "Async APIs, validation, security, testing" },
    { id := "solidity-foundry", name := "Solidity + Foundry",
      directory := "solidity + foundry", icon := "icons/solidity.png",
      summary := "Smart contract engineering with Foundry",
      focus := "Security-first, gas efficiency, upgradeability" },
    { id := "typescript-react-nextjs", name := "TypeScript-React + Nextjs",
      directory := "Typescript-React + Nextjs", icon := "icons/nextjs.png",
      summary := "Full-stack web development with Next.js",
      focus := "React patterns, accessibility, performance" } ]

/-- The filesystem operations the build uses, as fallible functions
(an `Except.error` models a rejected promise from `fs.promises`). -/
structure FileSystem where
  readdir : String → Except String (List String)
  readFile : String → Except String String

/-- The rule directory of a collection (`path.join(stackDir, ".cursor", "rules")`). -/
def rulesDirOf (cfg : StackConfig) : String := cfg.directory ++ "/.cursor/rules"

/-- Sequential fail-fast traversal (the behavior of an `await` loop over
`fs.promises` calls: the first rejection aborts the run). -/
def exceptMapM {α β : Type} (f : α → Except String β) : List α → Except String (List β)
  | [] => .ok []
  | x :: rest =>
    match f x with
    | .error e => .error e
    | .ok y =>
      match exceptMapM f rest with
      | .error e => .error e
      | .ok ys => .ok (y :: ys)

/-- Enumerate a collection's rule directory, filter to `.mdc` documents,
read and parse each into a guide, in directory-read order. -/
def rawGuides (fsys : FileSystem) (cfg : StackConfig) : Except String (List Guide) :=
  match fsys.readdir (rulesDirOf cfg) with
  | .error e => .error e
  | .ok files =>
    exceptMapM
      (fun f =>
        match fsys.readFile (rulesDirOf cfg ++ "/" ++ f) with
        | .error e => .error e
        | .ok content => .ok (mkGuide f content))
      (files.filter (fun f => strEndsWith f ".mdc"))

/-- An assembled collection record (the config spread plus `readme` and
`guides`). -/
structure Stack where
  id : String
  name : String
  directory : String
  icon : String
  summary : String
  focus : String
  readme : String
  guides : List Guide
deriving DecidableEq, Repr

/-- Build one collection: read guides, sort them, read the collection's
own `README.md` (absence tolerated — empty string). -/
def buildStack (lc : String → String → Ordering) (fsys : FileSystem)
    (cfg : StackConfig) : Except String Stack :=
  match rawGuides fsys cfg with
  | .error e => .error e
  | .ok raw =>
    let readme :=
      match fsys.readFile (cfg.directory ++ "/README.md") with
      | .ok s => s
      | .error _ => ""
    .ok { id := cfg.id, name := cfg.name, directory := cfg.directory,
          icon := cfg.icon, summary := cfg.summary, focus := cfg.focus,
          readme := readme, guides := sortGuides lc raw }

/-- The aggregate snapshot (generation timestamp omitted: it is read
from the ambient clock and carries no claim-relevant structure). -/
structure Snapshot where
  stackList : List Stack
deriving DecidableEq, Repr

/-- `buildGuidesData`: assemble every configured collection, in
configuration order; the first filesystem failure aborts the run. -/
def buildGuidesData (lc : String → String → Ordering) (fsys : FileSystem) :
    Except String Snapshot :=
  match exceptMapM (buildStack lc fsys) STACKS with
  | .error e => .error e
  | .ok builtStacks => .ok ⟨builtStacks⟩

/-- One build run against the snapshot file: the file is replaced only
when the build succeeds; on failure the run aborts (the promise rejects
past the final `fs.writeFile`) and the previous file remains. -/
def runBuild (lc : String → String → Ordering) (fsys : FileSystem)
    (oldFile : Option Snapshot) : Option Snapshot :=
  match buildGuidesData lc fsys with
  | .ok snap => some snap
  | .error _ => oldFile

/-! ## Static file server (`scripts/serve.mjs`) -/

/-- One step of POSIX path normalization over already-split segments:
empty and `.` segments are dropped, `..` pops (and is discarded at the
root of an absolute path), anything else is pushed. -/
def normStep (stack : List (List Char)) (seg : List Char) : List (List Char) :=
  if seg = [] || seg = ['.'] then stack
  else if seg = ['.', '.'] then stack.dropLast
  else stack ++ [seg]

/-- `path.join(root, p)` for an absolute `root`: concatenate with `/`
and normalize (`.`/`..`/`//` resolution). -/
def joinPath (root p : String) : String :=
  ⟨'/' :: List.intercalate ['/']
    ((splitOnChar '/' (root.data ++ '/' :: p.data)).foldl normStep [])⟩

/-- `path.extname`: the final extension of the basename, empty for
dotfiles and extensionless names. -/
def extnameOf (p : String) : String :=
  let base := ((splitOnChar '/' p.data).getLast?).getD []
  match lastSubEnd ['.'] base with
  | some n => if 2 ≤ n then ⟨base.drop (n - 1)⟩ else ""
  | none => ""

/-- The `MIME_TYPES` table with its `"text/plain"` default. -/
def getMimeType (p : String) : String :=
  let ext := extnameOf p
  if ext = ".html" then "text/html"
  else if ext = ".css" then "text/css"
  else if ext = ".js" then "application/javascript"
  else if ext = ".json" then "application/json"
  else if ext = ".png" then "image/png"
  else if ext = ".jpg" then "image/jpeg"
  else if ext = ".svg" then "image/svg+xml"
  else if ext = ".ico" then "image/x-icon"
  else "text/plain"

/-- A filesystem entry as the server sees it. -/
inductive FsEntry
  | file (content : String)
  | dir
deriving DecidableEq, Repr

/-- Path lookup in the server's filesystem model. -/
def fsLookup (fsys : List (String × FsEntry)) (p : String) : Option FsEntry :=
  (fsys.find? (fun e => e.1 = p)).map (·.2)

/-- `serveFile`: `none` when the path does not exist or is not a regular
file; otherwise the content together with the computed MIME type. -/
def serveFile (fsys : List (String × FsEntry)) (filePath : String) :
    Option (String × String) :=
  match fsLookup fsys filePath with
  | some (.file content) => some (content, getMimeType filePath)
  | _ => none

/-- An HTTP response (status, `Content-Type`, body). -/
structure HttpResponse where
  status : Nat
  contentType : String
  body : String
deriving DecidableEq, Repr

/-- The 404 fallback page (template whitespace elided; the requested
pathname is interpolated as in the source). -/
def notFoundPage (pathname : String) : String :=
  "<!DOCTYPE html><html><head><title>404 Not Found</title></head><body>" ++
    "<h1>404 - File Not Found</h1><p>The file <code>" ++ pathname ++
    "</code> was not found.</p><p><a href=\"/\">Go back to homepage</a></p></body></html>"

/-- A C0 control or space code point (what the WHATWG URL parser trims
from the ends of its input). -/
def isC0OrSpace (c : Char) : Bool := c.toNat ≤ 32

/-- ASCII tab or newline (removed everywhere in the URL parser's input). -/
def isTabOrNewline (c : Char) : Bool := c = '\t' || c = '\n' || c = '\r'

/-- The URL parser's input preprocessing: strip leading and trailing C0
controls and spaces, then remove every ASCII tab and newline. -/
def urlPreprocess (s : List Char) : List Char :=
  (((s.dropWhile isC0OrSpace).reverse.dropWhile isC0OrSpace).reverse).filter
    (fun c => !isTabOrNewline c)

/-- A single-dot path segment of the URL path state, matched
case-insensitively against `.` and `%2e`. -/
def isSingleDotSeg (b : List Char) : Bool :=
  b.map Char.toLower = ['.'] || b.map Char.toLower = ['%', '2', 'e']

/-- A double-dot path segment of the URL path state, matched
case-insensitively against `..`, `.%2e`, `%2e.` and `%2e%2e`. -/
def isDoubleDotSeg (b : List Char) : Bool :=
  b.map Char.toLower = ['.', '.'] || b.map Char.toLower = ['.', '%', '2', 'e'] ||
    b.map Char.toLower = ['%', '2', 'e', '.'] ||
    b.map Char.toLower = ['%', '2', 'e', '%', '2', 'e']

/-- Segment-boundary step of the WHATWG URL path state: a double-dot
segment pops the last path segment, a single-dot segment is dropped,
anything else is appended; when the boundary is not a slash (end of
input, `?` or `#`), a resolved dot segment leaves a trailing empty
segment.  `noSlash` is true exactly in that case. -/
def stepSeg (buf : List Char) (path : List (List Char)) (noSlash : Bool) :
    List (List Char) :=
  if isDoubleDotSeg buf then
    if noSlash then path.dropLast ++ [[]] else path.dropLast
  else if isSingleDotSeg buf then
    if noSlash then path ++ [[]] else path
  else path ++ [buf]

/-- The URL path state over the remaining input: `/` (and, for the
special `http` scheme, `\`) terminate a segment, `?` and `#` terminate
the whole path (query/fragment), every other character is accumulated
into the segment buffer.  Percent-encoding of disallowed code points
inside a segment is elided: it substitutes single non-separator
characters and can neither create a separator nor a dot segment, so it
does not affect the routing facts proved below. -/
def pathStateGo : List Char → List Char → List (List Char) → List (List Char)
  | [], buf, path => stepSeg buf path true
  | c :: rest, buf, path =>
    if c = '?' ∨ c = '#' then stepSeg buf path true
    else if c = '/' ∨ c = '\\' then pathStateGo rest [] (stepSeg buf path false)
    else pathStateGo rest (buf ++ [c]) path

/-- The path segments of `new URL(s, base)` (serve.mjs line 336) for a
request-target `s` parsed against an `http` base whose path is `/`: a
leading slash starts the path state at the root; otherwise the base
path (a single empty segment) is shortened to nothing and the path
state runs over the whole input.  Inputs that re-parse the authority
(leading `//` or `/\`) or carry a scheme are outside the modeled domain
(see `originForm`). -/
def urlSegs (s : List Char) : List (List Char) :=
  match urlPreprocess s with
  | '/' :: rest => pathStateGo rest [] []
  | t => pathStateGo t [] []

/-- `new URL(s, base).pathname` under `urlSegs`: the URL path
serializer prefixes every segment with a slash. -/
def urlPathname (s : List Char) : List Char :=
  '/' :: List.intercalate ['/'] (urlSegs s)

/-- An origin-form request target (the shape HTTP clients send): after
URL input preprocessing it starts with a single slash not followed by
another slash or backslash (which would re-parse the authority).  The
handler model is faithful to the source exactly on this domain. -/
def originForm (s : List Char) : Bool :=
  match urlPreprocess s with
  | ['/'] => true
  | '/' :: c :: _ => !(c = '/' || c = '\\')
  | _ => false

/-- The handler's pathname: the parsed URL's pathname with `/`
defaulted to `/index.html`. -/
def requestPathname (url : String) : String :=
  let pathname0 : String := ⟨urlPathname url.data⟩
  if pathname0 = "/" then "/index.html" else pathname0

/-- The request handler of `createServer`: parse the request URL's
pathname (resolving dot segments), default `/` to `/index.html`, join
against the document root, reject with 403 when the joined path does
not have the root as a string prefix, then 404 or 200 via `serveFile`. -/
def handleRequest (fsys : List (String × FsEntry)) (docsDir : String)
    (url : String) : HttpResponse :=
  let pathname := requestPathname url
  let filePath := joinPath docsDir pathname
  if ¬ strStartsWith filePath docsDir then
    { status := 403, contentType := "text/plain", body := "Forbidden" }
  else
    match serveFile fsys filePath with
    | some (content, mime) => { status := 200, contentType := mime, body := content }
    | none => { status := 404, contentType := "text/html", body := notFoundPage pathname }

/-- A path segment acceptable inside a normalized absolute directory
path: nonempty and not a dot segment. -/
def normalSeg (s : List Char) : Bool := s ≠ [] && s ≠ ['.'] && s ≠ ['.', '.']

/-- A normalized absolute directory path below the filesystem root: a
leading slash followed by nonempty, dot-free segments (the shape
`path.resolve`/`path.join` give the document root in the source). -/
def rootNormal (root : String) : Bool :=
  match root.data with
  | '/' :: rest => (splitOnChar '/' rest).all normalSeg
  | _ => false

/-- Modelled from the spec: "Reject (403) any resolved path that escapes
the root after resolution".  A resolved path escapes the document root
when it is neither the root itself nor strictly inside the root
directory.  This definition follows the spec's words and is compared
against the implementation's string-prefix guard. -/
def escapesRootSpec (root resolved : String) : Bool :=
  !(resolved == root || strStartsWith resolved (root ++ "/"))

/-- Whether a frontmatter value is a list. -/
def FmValue.isList : FmValue → Bool
  | .list _ => true
  | _ => false

/-- Whether an `Except` computation succeeded. -/
def exceptIsOk {α : Type} : Except String α → Bool
  | .ok _ => true
  | .error _ => false

/-- A degenerate locale comparator (all strings compare equal) used to
instantiate comparator hypotheses in concrete witnesses. -/
def eqLocale : String → String → Ordering := fun _ _ => Ordering.eq

/-- A concrete filesystem whose every directory holds the spec's §8
example listing and whose files all read as `"body"`. -/
def exampleFs : FileSystem :=
  ⟨fun _ => .ok ["b-guide.mdc", "a-guide.mdc", "README.md"], fun _ => .ok "body"⟩

/-- A minimal concrete collection configuration. -/
def exampleCfg : StackConfig :=
  { id := "t", name := "T", directory := "T", icon := "i", summary := "s", focus := "f" }

/-- The guides `exampleFs` yields for any collection, in directory-read
order (the overview file is excluded by the `.mdc` filter). -/
def exampleRaw : List Guide :=
  [mkGuide "b-guide.mdc" "body", mkGuide "a-guide.mdc" "body"]

/-- The collection `buildStack` assembles from `exampleFs`. -/
def exampleStack : Stack :=
  match buildStack eqLocale exampleFs exampleCfg with
  | .ok st => st
  | .error _ => ⟨"", "", "", "", "", "", "", []⟩

/-- A filesystem whose directory enumeration always fails. -/
def failingFs : FileSystem := ⟨fun _ => .error "EACCES", fun _ => .ok ""⟩

/-- A pre-existing snapshot file content. -/
def oldSnapshot : Snapshot := ⟨[]⟩

/-- A concrete filesystem where every rule directory holds one `.mdc`
document. -/
def oneDocFs : FileSystem := ⟨fun _ => .ok ["a.mdc"], fun _ => .ok "body"⟩

/-- The snapshot built from `oneDocFs`. -/
def oneDocSnap : Snapshot :=
  match buildGuidesData eqLocale oneDocFs with
  | .ok s => s
  | .error _ => ⟨[]⟩

/-- The first collection of `oneDocSnap`. -/
def oneDocStack : Stack :=
  match oneDocSnap.stackList with
  | st :: _ => st
  | [] => ⟨"", "", "", "", "", "", "", []⟩

/-- The single guide document `oneDocFs` yields. -/
def oneDocGuide : Guide := mkGuide "a.mdc" "body"

/-! ## Helper lemmas -/

theorem codeBlockGo_nil (f : Nat) : codeBlockGo f [] = [] := by
  cases f <;> rfl

theorem findSub_append_bq (c : List Char) (h : backquote ∉ c) :
    findSub [backquote, backquote, backquote]
      (c ++ [backquote, backquote, backquote]) = some c.length := by
  induction c with
  | nil => decide
  | cons a c ih =>
    have ha : ¬ backquote = a := fun he => h (by rw [he]; exact List.mem_cons_self a c)
    have hmem : backquote ∉ c := fun hm => h (List.mem_cons_of_mem a hm)
    have hpre : [backquote, backquote, backquote].isPrefixOf
        (a :: (c ++ [backquote, backquote, backquote])) = false := by
      simp [List.isPrefixOf, ha]
    show findSub [backquote, backquote, backquote]
        (a :: (c ++ [backquote, backquote, backquote])) = some (c.length + 1)
    simp only [findSub, hpre, Bool.false_eq_true, if_false, ih hmem, Option.map_some']

theorem findSub_spec (pat : List Char) :
    ∀ (l : List Char) (n : Nat), findSub pat l = some n →
      pat.isPrefixOf (l.drop n) = true ∧
        ∀ m, m < n → pat.isPrefixOf (l.drop m) = false := by
  intro l
  induction l with
  | nil =>
    intro n h
    simp only [findSub] at h
    split at h
    · rename_i hp
      cases h
      exact ⟨hp, fun m hm => absurd hm (Nat.not_lt_zero m)⟩
    · cases h
  | cons c rest ih =>
    intro n h
    simp only [findSub] at h
    split at h
    · rename_i hp
      cases h
      exact ⟨hp, fun m hm => absurd hm (Nat.not_lt_zero m)⟩
    · rename_i hp
      cases hfs : findSub pat rest with
      | none => rw [hfs] at h; cases h
      | some n2 =>
        rw [hfs] at h
        simp only [Option.map_some', Option.some.injEq] at h
        subst h
        obtain ⟨h1, h2⟩ := ih n2 hfs
        refine ⟨h1, fun m hm => ?_⟩
        cases m with
        | zero => simpa using Bool.eq_false_iff.mpr hp
        | succ m2 => exact h2 m2 (Nat.lt_of_succ_lt_succ hm)

theorem exceptMapM_ok_forall {α β : Type} (f : α → Except String β) :
    ∀ (l : List α) (ys : List β), exceptMapM f l = .ok ys →
      ∀ x ∈ l, ∃ y, f x = .ok y := by
  intro l
  induction l with
  | nil => intro ys _ x hx; cases hx
  | cons a rest ih =>
    intro ys h x hx
    simp only [exceptMapM] at h
    cases hf : f a with
    | error e => rw [hf] at h; cases h
    | ok y =>
      rw [hf] at h
      cases hr : exceptMapM f rest with
      | error e => rw [hr] at h; cases h
      | ok ys2 =>
        rw [hr] at h
        cases List.mem_cons.mp hx with
        | inl hxa => exact hxa ▸ ⟨y, hf⟩
        | inr hxr => exact ih ys2 hr x hxr

theorem exceptMapM_ok_mem {α β : Type} (f : α → Except String β) :
    ∀ (l : List α) (ys : List β), exceptMapM f l = .ok ys →
      ∀ y ∈ ys, ∃ x ∈ l, f x = .ok y := by
  intro l
  induction l with
  | nil =>
    intro ys h y hy
    simp only [exceptMapM, Except.ok.injEq] at h
    subst h
    cases hy
  | cons a rest ih =>
    intro ys h y hy
    simp only [exceptMapM] at h
    cases hf : f a with
    | error e => rw [hf] at h; cases h
    | ok y2 =>
      rw [hf] at h
      cases hr : exceptMapM f rest with
      | error e => rw [hr] at h; cases h
      | ok ys2 =>
        rw [hr] at h
        simp only [Except.ok.injEq] at h
        subst h
        cases List.mem_cons.mp hy with
        | inl hya => exact ⟨a, List.mem_cons_self a rest, hya ▸ hf⟩
        | inr hyr =>
          obtain ⟨x, hxl, hfx⟩ := ih ys2 hr y hyr
          exact ⟨x, List.mem_cons_of_mem a hxl, hfx⟩

theorem buildStack_ok {lc : String → String → Ordering} {fsys : FileSystem}
    {cfg : StackConfig} {st : Stack} (h : buildStack lc fsys cfg = .ok st) :
    ∃ raw, rawGuides fsys cfg = .ok raw ∧ st.guides = sortGuides lc raw := by
  unfold buildStack at h
  cases hr : rawGuides fsys cfg with
  | error e => rw [hr] at h; cases h
  | ok raw =>
    rw [hr] at h
    simp only [Except.ok.injEq] at h
    exact ⟨raw, rfl, by rw [← h]⟩

theorem rawGuides_ok {fsys : FileSystem} {cfg : StackConfig} {raw : List Guide}
    (h : rawGuides fsys cfg = .ok raw) :
    ∃ files, fsys.readdir (rulesDirOf cfg) = .ok files ∧
      ∀ g ∈ raw, ∃ f ∈ files.filter (fun f => strEndsWith f ".mdc"),
        ∃ content, g = mkGuide f content := by
  unfold rawGuides at h
  cases hd : fsys.readdir (rulesDirOf cfg) with
  | error e => rw [hd] at h; cases h
  | ok files =>
    rw [hd] at h
    refine ⟨files, rfl, fun g hg => ?_⟩
    obtain ⟨f, hf, hok⟩ := exceptMapM_ok_mem _ _ _ h g hg
    refine ⟨f, hf, ?_⟩
    revert hok
    cases hc : fsys.readFile (rulesDirOf cfg ++ "/" ++ f) with
    | error e => intro hok; cases hok
    | ok content =>
      intro hok
      simp only [Except.ok.injEq] at hok
      exact ⟨content, hok.symm⟩

theorem buildGuidesData_ok {lc : String → String → Ordering} {fsys : FileSystem}
    {snap : Snapshot} (h : buildGuidesData lc fsys = .ok snap) :
    ∃ ls, exceptMapM (buildStack lc fsys) STACKS = .ok ls ∧ snap = ⟨ls⟩ := by
  unfold buildGuidesData at h
  cases hm : exceptMapM (buildStack lc fsys) STACKS with
  | error e => rw [hm] at h; cases h
  | ok ls =>
    rw [hm] at h
    simp only [Except.ok.injEq] at h
    exact ⟨ls, rfl, h.symm⟩

theorem guideLe_trans {lc : String → String → Ordering}
    (htrans : ∀ a b c : String, lc a b ≠ .gt → lc b c ≠ .gt → lc a c ≠ .gt) :
    ∀ a b c : Guide, guideLe lc a b = true → guideLe lc b c = true →
      guideLe lc a c = true := by
  intro a b c hab hbc
  unfold guideLe at hab hbc ⊢
  by_cases haR : a.fileName = "README.md"
  · simp [haR]
  · rw [if_neg haR] at hab ⊢
    by_cases hbR : b.fileName = "README.md"
    · rw [if_pos hbR] at hab
      cases hab
    · rw [if_neg hbR] at hab hbc
      by_cases hcR : c.fileName = "README.md"
      · rw [if_pos hcR] at hbc
        cases hbc
      · rw [if_neg hcR] at hbc ⊢
        rw [decide_eq_true_iff] at hab hbc ⊢
        exact htrans _ _ _ hab hbc

theorem guideLe_total {lc : String → String → Ordering}
    (htotal : ∀ a b : String, lc a b ≠ .gt ∨ lc b a ≠ .gt) :
    ∀ a b : Guide, (guideLe lc a b || guideLe lc b a) = true := by
  intro a b
  unfold guideLe
  by_cases haR : a.fileName = "README.md"
  · simp [haR]
  · by_cases hbR : b.fileName = "README.md"
    · simp [haR, hbR]
    · simp only [haR, hbR, if_false, Bool.or_eq_true, decide_eq_true_iff]
      exact htotal _ _

theorem lastSubEnd_ge (pat : List Char) :
    ∀ (l : List Char) (n : Nat), lastSubEnd pat l = some n → pat.length ≤ n := by
  intro l
  induction l with
  | nil =>
    intro n h
    simp only [lastSubEnd] at h
    split at h
    · cases h; exact Nat.le_refl _
    · cases h
  | cons c rest ih =>
    intro n h
    simp only [lastSubEnd] at h
    split at h
    · rename_i n2 hn2
      cases h
      exact Nat.le_succ_of_le (ih n2 hn2)
    · split at h
      · cases h; exact Nat.le_refl _
      · cases h

theorem tryLiUnit_head (s m rest : List Char) (h : tryLiUnit s = some (m, rest)) :
    ∃ t, m = '<' :: t := by
  unfold tryLiUnit at h
  split at h
  · rename_i hpre
    dsimp only at h
    revert h
    split
    · rename_i n hn
      have hge : 5 ≤ n := lastSubEnd_ge _ _ _ hn
      intro h
      have hline : ∃ t0, s.takeWhile (· ≠ '\n') = '<' :: t0 := by
        have : ∃ t1, s = '<' :: t1 := by
          cases s with
          | nil => simp [List.isPrefixOf] at hpre
          | cons c s' =>
            have : c = '<' := by
              simp [List.isPrefixOf, beq_iff_eq] at hpre
              exact hpre.1.symm
            exact ⟨s', by rw [this]⟩
        obtain ⟨t1, ht1⟩ := this
        subst ht1
        rw [List.takeWhile_cons]
        simp
      obtain ⟨t0, ht0⟩ := hline
      rw [ht0] at h
      have htake : (('<' :: t0).take n) = '<' :: t0.take (n - 1) := by
        cases n with
        | zero => omega
        | succ n2 => simp [List.take_succ_cons]
      split at h
      · split at h
        · simp only [Option.some.injEq, Prod.mk.injEq] at h
          exact ⟨t0.take (n - 1) ++ ['\n'], by rw [← h.1, htake]; rfl⟩
        · simp only [Option.some.injEq, Prod.mk.injEq] at h
          exact ⟨t0.take (n - 1), by rw [← h.1, htake]⟩
      · simp only [Option.some.injEq, Prod.mk.injEq] at h
        exact ⟨t0.take (n - 1), by rw [← h.1, htake]⟩
    · intro h; cases h
  · cases h

theorem tryLiRun_never_digit (s m r2 : List Char) (h : tryLiRun s = some (m, r2)) :
    startsDigitDot m = false := by
  unfold tryLiRun at h
  cases hu : tryLiUnit s with
  | none => rw [hu] at h; cases h
  | some p =>
    obtain ⟨m1, rest⟩ := p
    rw [hu] at h
    simp only [Option.some.injEq, Prod.mk.injEq] at h
    obtain ⟨t, ht⟩ := tryLiUnit_head s m1 rest hu
    have hm : m = ('<' :: t) ++ (liRunGo rest.length rest).1 := by
      rw [← h.1, ht]
    rw [hm]
    unfold startsDigitDot
    simp [List.takeWhile]

/-! ### Pass-identity lemmas for the renderer -/

theorem codeBlockGo_id (s : List Char) (h : ∀ t, t <:+ s → tryFence t = none) :
    ∀ f, codeBlockGo f s = s := by
  induction s with
  | nil => intro f; cases f <;> rfl
  | cons c rest ih =>
    intro f
    cases f with
    | zero => rfl
    | succ f2 =>
      simp only [codeBlockGo, h (c :: rest) (List.suffix_refl _)]
      rw [ih (fun t ht => h t (ht.trans (List.suffix_cons c rest))) f2]

theorem listItemGo_id (tryItem : List Char → Option (List Char × List Char))
    (s : List Char) (h : ∀ t, t <:+ s → tryItem t = none) :
    ∀ f b, listItemGo tryItem f b s = s := by
  induction s with
  | nil => intro f b; cases f <;> rfl
  | cons c rest ih =>
    intro f b
    cases f with
    | zero => rfl
    | succ f2 =>
      have hrest := ih (fun t ht => h t (ht.trans (List.suffix_cons c rest)))
      cases b <;>
        simp only [listItemGo, h (c :: rest) (List.suffix_refl _), if_true, if_false,
          Bool.false_eq_true, hrest]

theorem liWrapGo_id (s : List Char) (h : ∀ t, t <:+ s → tryLiRun t = none) :
    ∀ f, liWrapGo f s = s := by
  induction s with
  | nil => intro f; cases f <;> rfl
  | cons c rest ih =>
    intro f
    cases f with
    | zero => rfl
    | succ f2 =>
      simp only [liWrapGo, h (c :: rest) (List.suffix_refl _)]
      rw [ih (fun t ht => h t (ht.trans (List.suffix_cons c rest))) f2]

theorem delimGo_id (delim pre post : List Char) (s : List Char)
    (h : ∀ t, t <:+ s → delim.isPrefixOf t = false) :
    ∀ f, delimGo delim pre post f s = s := by
  induction s with
  | nil => intro f; cases f <;> rfl
  | cons c rest ih =>
    intro f
    cases f with
    | zero => rfl
    | succ f2 =>
      simp only [delimGo, h (c :: rest) (List.suffix_refl _), Bool.false_eq_true, if_false]
      rw [ih (fun t ht => h t (ht.trans (List.suffix_cons c rest))) f2]

theorem inlineCodeGo_id (s : List Char) (h : ∀ t, t <:+ s → tryInlineCode t = none) :
    ∀ f, inlineCodeGo f s = s := by
  induction s with
  | nil => intro f; cases f <;> rfl
  | cons c rest ih =>
    intro f
    cases f with
    | zero => rfl
    | succ f2 =>
      simp only [inlineCodeGo, h (c :: rest) (List.suffix_refl _)]
      rw [ih (fun t ht => h t (ht.trans (List.suffix_cons c rest))) f2]

theorem linkGo_id (s : List Char) (h : ∀ t, t <:+ s → tryLink t = none) :
    ∀ f, linkGo f s = s := by
  induction s with
  | nil => intro f; cases f <;> rfl
  | cons c rest ih =>
    intro f
    cases f with
    | zero => rfl
    | succ f2 =>
      simp only [linkGo, h (c :: rest) (List.suffix_refl _)]
      rw [ih (fun t ht => h t (ht.trans (List.suffix_cons c rest))) f2]

theorem imageGo_id (s : List Char) (h : ∀ t, t <:+ s → tryImage t = none) :
    ∀ f, imageGo f s = s := by
  induction s with
  | nil => intro f; cases f <;> rfl
  | cons c rest ih =>
    intro f
    cases f with
    | zero => rfl
    | succ f2 =>
      simp only [imageGo, h (c :: rest) (List.suffix_refl _)]
      rw [ih (fun t ht => h t (ht.trans (List.suffix_cons c rest))) f2]

theorem replaceAllGo_id (pat rep : List Char) (s : List Char)
    (h : ∀ t, t <:+ s → pat.isPrefixOf t = false) :
    ∀ f, replaceAllGo pat rep f s = s := by
  induction s with
  | nil => intro f; cases f <;> rfl
  | cons c rest ih =>
    intro f
    cases f with
    | zero => rfl
    | succ f2 =>
      simp only [replaceAllGo, h (c :: rest) (List.suffix_refl _), Bool.false_eq_true,
        if_false]
      rw [ih (fun t ht => h t (ht.trans (List.suffix_cons c rest))) f2]

theorem unwrapPGo_id (s : List Char) (h : ∀ t, t <:+ s → tryUnwrapP t = none) :
    ∀ f, unwrapPGo f s = s := by
  induction s with
  | nil => intro f; cases f <;> rfl
  | cons c rest ih =>
    intro f
    cases f with
    | zero => rfl
    | succ f2 =>
      simp only [unwrapPGo, h (c :: rest) (List.suffix_refl _)]
      rw [ih (fun t ht => h t (ht.trans (List.suffix_cons c rest))) f2]

theorem isPrefixOf_false_of_head {c d : Char} {p s : List Char} (h : c ≠ d) :
    (c :: p).isPrefixOf (d :: s) = false := by
  simp [List.isPrefixOf, h]

theorem tryFence_none_of_head {c : Char} {t : List Char} (hc : c ≠ backquote) :
    tryFence (c :: t) = none := by
  match t with
  | [] => rfl
  | [b2] => rfl
  | b2 :: b3 :: rest =>
    unfold tryFence
    dsimp only
    rw [if_neg]
    simp [hc]

theorem tryOrderedItem_none_of_no_dot {t : List Char} (h : '.' ∉ t) :
    tryOrderedItem t = none := by
  unfold tryOrderedItem
  by_cases hd : t.takeWhile Char.isDigit = []
  · simp [hd]
  · rw [if_neg hd]
    split
    · rename_i r2 heq
      exact absurd (List.drop_subset _ t (heq ▸ List.mem_cons_self '.' r2)) h
    · rfl

theorem tryUnorderedItem_none_of_head {c : Char} {t : List Char}
    (h1 : c ≠ '-') (h2 : c ≠ '*') (h3 : c ≠ '+') :
    tryUnorderedItem (c :: t) = none := by
  unfold tryUnorderedItem
  dsimp only
  rw [if_neg]
  simp [h1, h2, h3]

theorem tryLiUnit_none_of_not_li {t : List Char}
    (h : "<li>".data.isPrefixOf t = false) : tryLiUnit t = none := by
  unfold tryLiUnit
  rw [h]
  rfl

theorem tryLiRun_none_of_not_li {t : List Char}
    (h : "<li>".data.isPrefixOf t = false) : tryLiRun t = none := by
  unfold tryLiRun
  rw [tryLiUnit_none_of_not_li h]

theorem tryInlineCode_none_of_head {c : Char} {t : List Char} (hc : c ≠ backquote) :
    tryInlineCode (c :: t) = none := by
  unfold tryInlineCode
  dsimp only
  rw [if_neg]
  simpa using hc

theorem tryLink_none_of_head {c : Char} {t : List Char} (hc : c ≠ '[') :
    tryLink (c :: t) = none := by
  unfold tryLink
  split
  · rename_i heq
    cases heq
    exact absurd rfl hc
  · rfl

theorem tryImage_none_of_head {c : Char} {t : List Char} (hc : c ≠ '!') :
    tryImage (c :: t) = none := by
  unfold tryImage
  split
  · rename_i heq
    cases heq
    exact absurd rfl hc
  · rfl

theorem tryUnwrapP_none_of_not_p {t : List Char}
    (h : "<p>".data.isPrefixOf t = false) : tryUnwrapP t = none := by
  unfold tryUnwrapP
  rw [h]
  rfl

theorem splitOnChar_single (sep : Char) (s : List Char) (h : ∀ c ∈ s, c ≠ sep) :
    splitOnChar sep s = [s] := by
  induction s with
  | nil => rfl
  | cons c rest ih =>
    unfold splitOnChar
    rw [if_neg (h c (List.mem_cons_self c rest))]
    rw [ih (fun d hd => h d (List.mem_cons_of_mem c hd))]

theorem mapLines_single (f : List Char → List Char) (s : List Char)
    (h : ∀ c ∈ s, c ≠ '\n') : mapLines f s = f s := by
  rw [mapLines, splitOnChar_single '\n' s h]
  simp [List.intercalate]

theorem jsTrimL_id (s : List Char) (h : ∀ c ∈ s, jsSpace c = false) :
    jsTrimL s = s := by
  have h1 : jsTrimStartL s = s := by
    cases s with
    | nil => rfl
    | cons c rest =>
      unfold jsTrimStartL
      rw [List.dropWhile_cons, h c (List.mem_cons_self c rest)]
      simp
  rw [jsTrimL, h1]
  unfold jsTrimEndL
  cases hr : s.reverse with
  | nil => simpa using congrArg List.reverse hr.symm
  | cons c rest =>
    have hc : jsSpace c = false := by
      refine h c ?_
      rw [← List.mem_reverse, hr]
      exact List.mem_cons_self c rest
    rw [List.dropWhile_cons, hc]
    simp [← hr]

theorem nlToBr_id (s : List Char) (h : '\n' ∉ s) : nlToBr s = s := by
  induction s with
  | nil => rfl
  | cons c rest ih =>
    unfold nlToBr
    rw [List.foldr_cons]
    have hc : c ≠ '\n' := fun he => h (he ▸ List.mem_cons_self c rest)
    rw [if_neg hc]
    have := ih (fun hm => h (List.mem_cons_of_mem c hm))
    unfold nlToBr at this
    rw [this]
    rfl

theorem findSub_nn_none (s : List Char) (h : '\n' ∉ s) :
    findSub ['\n', '\n'] s = none := by
  induction s with
  | nil => rfl
  | cons c rest ih =>
    unfold findSub
    have hc : c ≠ '\n' := fun he => h (he ▸ List.mem_cons_self c rest)
    have hp : (['\n', '\n'] : List Char).isPrefixOf (c :: rest) = false :=
      isPrefixOf_false_of_head (fun he => hc he.symm)
    rw [if_neg (by simp [hp])]
    rw [ih (fun hm => h (List.mem_cons_of_mem c hm))]
    rfl

theorem splitBlocks_single (s : List Char) (h : '\n' ∉ s) :
    splitBlocks s = [s] := by
  unfold splitBlocks
  cases hl : s.length with
  | zero => rfl
  | succ n =>
    unfold splitBlocksGo
    rw [findSub_nn_none s h]

theorem isBlockElem_false_of_head {c : Char} {t : List Char} (hc : c ≠ '<') :
    isBlockElem (c :: t) = false := by
  unfold isBlockElem
  split
  · rename_i heq
    cases heq
    exact absurd rfl hc
  · rfl

theorem suffix_append_cases (t A B : List Char) (h : t <:+ A ++ B) :
    t <:+ B ∨ ∃ t2, t2 ≠ [] ∧ t2 <:+ A ∧ t = t2 ++ B := by
  induction A with
  | nil => left; simpa using h
  | cons a A2 ih =>
    rw [List.cons_append] at h
    rcases List.suffix_cons_iff.mp h with h1 | h2
    · right
      exact ⟨a :: A2, by simp, List.suffix_refl _, by rw [h1, List.cons_append]⟩
    · rcases ih h2 with h3 | ⟨t2, hne, hsuf, heq⟩
      · left; exact h3
      · right; exact ⟨t2, hne, hsuf.trans (List.suffix_cons a A2), heq⟩

theorem alnum_ne_of {c : Char} (hc : Char.isAlphanum c = true) {d : Char}
    (hd : Char.isAlphanum d = false) : c ≠ d := by
  intro he
  rw [he, hd] at hc
  cases hc

theorem alnum_not_space {c : Char} (hc : Char.isAlphanum c = true) :
    jsSpace c = false := by
  cases hs : jsSpace c with
  | false => rfl
  | true =>
    exfalso
    have : ((((c = ' ' ∨ c = '\t') ∨ c = '\n') ∨ c = '\r') ∨ c = '\x0b') ∨ c = '\x0c' := by
      simpa [jsSpace, decide_eq_true_eq] using hs
    rcases this with ((((h | h) | h) | h) | h) | h <;> (subst h; exact absurd hc (by decide))

theorem suffix_p4 {t : List Char} (h : t <:+ "</p>".data) :
    t = "</p>".data ∨ t = "/p>".data ∨ t = "p>".data ∨ t = ">".data ∨ t = [] := by
  rcases List.suffix_cons_iff.mp h with h1 | h2
  · exact Or.inl h1
  rcases List.suffix_cons_iff.mp h2 with h1 | h2
  · exact Or.inr (Or.inl h1)
  rcases List.suffix_cons_iff.mp h2 with h1 | h2
  · exact Or.inr (Or.inr (Or.inl h1))
  rcases List.suffix_cons_iff.mp h2 with h1 | h2
  · exact Or.inr (Or.inr (Or.inr (Or.inl h1)))
  · exact Or.inr (Or.inr (Or.inr (Or.inr (List.suffix_nil.mp h2))))

theorem suffix_wrapped {x B t : List Char} (h : t <:+ '<' :: 'p' :: '>' :: (x ++ B)) :
    t = '<' :: 'p' :: '>' :: (x ++ B) ∨ t = 'p' :: '>' :: (x ++ B) ∨
    t = '>' :: (x ++ B) ∨ (∃ t2, t2 ≠ [] ∧ t2 <:+ x ∧ t = t2 ++ B) ∨ t <:+ B := by
  rcases List.suffix_cons_iff.mp h with h1 | h2
  · exact Or.inl h1
  rcases List.suffix_cons_iff.mp h2 with h1 | h2
  · exact Or.inr (Or.inl h1)
  rcases List.suffix_cons_iff.mp h2 with h1 | h2
  · exact Or.inr (Or.inr (Or.inl h1))
  rcases suffix_append_cases t x B h2 with h3 | h4
  · exact Or.inr (Or.inr (Or.inr (Or.inr h3)))
  · exact Or.inr (Or.inr (Or.inr (Or.inl h4)))

theorem tryUnwrapP_wrapped_nonlt {x0 : Char} (h : x0 ≠ '<') (rest : List Char) :
    tryUnwrapP ('<' :: 'p' :: '>' :: x0 :: rest) = none := by
  unfold tryUnwrapP
  rw [if_pos (by simp [List.isPrefixOf])]
  dsimp only
  split
  · rename_i heq
    rw [List.drop_succ_cons, List.drop_succ_cons, List.drop_succ_cons, List.drop_zero] at heq
    cases heq
    exact absurd rfl h
  · rfl

theorem headerPass_id (k : Nat) (oT cT : List Char) (x : List Char)
    (hnl : ∀ c ∈ x, c ≠ '\n')
    (hp : (List.replicate k '#' ++ [' ']).isPrefixOf x = false) :
    headerPass k oT cT x = x := by
  unfold headerPass
  rw [mapLines_single _ _ hnl]
  simp [hp]

theorem hrPass_id (marker : List Char) (x : List Char)
    (hnl : ∀ c ∈ x, c ≠ '\n') (hm : x ≠ marker) : hrPass marker x = x := by
  unfold hrPass
  rw [mapLines_single _ _ hnl]
  simp [hm]

theorem blockquotePass_id (x : List Char)
    (hnl : ∀ c ∈ x, c ≠ '\n')
    (hp : ('>' :: [' ']).isPrefixOf x = false) : blockquotePass x = x := by
  unfold blockquotePass
  rw [mapLines_single _ _ hnl]
  simp [hp]

theorem render_plain (x : List Char) (hne : x ≠ [])
    (hx : ∀ c ∈ x, Char.isAlphanum c = true) :
    parseMarkdownL x = '<' :: 'p' :: '>' :: (x ++ "</p>".data) := by
  obtain ⟨x0, xr, hx0⟩ := List.exists_cons_of_ne_nil hne
  have hx0a : Char.isAlphanum x0 = true := hx x0 (by rw [hx0]; exact List.mem_cons_self _ _)
  have hx0ne : ∀ d : Char, Char.isAlphanum d = false → x0 ≠ d := fun d hd => alnum_ne_of hx0a hd
  have hchar : ∀ {t : List Char}, t <:+ x → ∀ c ∈ t, Char.isAlphanum c = true :=
    fun ht c hc => hx c (ht.sublist.subset hc)
  have hnl : ∀ c ∈ x, c ≠ '\n' := fun c hc => alnum_ne_of (hx c hc) (by decide)
  -- stage 1: code blocks
  have hcb : codeBlockPass x = x := by
    unfold codeBlockPass
    refine codeBlockGo_id x (fun t ht => ?_) x.length
    cases t with
    | nil => rfl
    | cons c t2 =>
      exact tryFence_none_of_head (alnum_ne_of (hchar ht c (List.mem_cons_self c t2)) (by decide))
  -- headings
  have hhead : headersStage x = x := by
    unfold headersStage
    rw [headerPass_id 6 _ _ x hnl (by rw [hx0]; exact isPrefixOf_false_of_head (Ne.symm (hx0ne '#' (by decide))))]
    rw [headerPass_id 5 _ _ x hnl (by rw [hx0]; exact isPrefixOf_false_of_head (Ne.symm (hx0ne '#' (by decide))))]
    rw [headerPass_id 4 _ _ x hnl (by rw [hx0]; exact isPrefixOf_false_of_head (Ne.symm (hx0ne '#' (by decide))))]
    rw [headerPass_id 3 _ _ x hnl (by rw [hx0]; exact isPrefixOf_false_of_head (Ne.symm (hx0ne '#' (by decide))))]
    rw [headerPass_id 2 _ _ x hnl (by rw [hx0]; exact isPrefixOf_false_of_head (Ne.symm (hx0ne '#' (by decide))))]
    rw [headerPass_id 1 _ _ x hnl (by rw [hx0]; exact isPrefixOf_false_of_head (Ne.symm (hx0ne '#' (by decide))))]
  -- horizontal rules
  have hhr1 : hrPass "---".data x = x := by
    refine hrPass_id _ x hnl ?_
    rw [hx0]
    intro he
    injection he with h1 _
    exact hx0ne '-' (by decide) h1
  have hhr2 : hrPass "***".data x = x := by
    refine hrPass_id _ x hnl ?_
    rw [hx0]
    intro he
    injection he with h1 _
    exact hx0ne '*' (by decide) h1
  -- blockquotes
  have hbq : blockquotePass x = x := by
    refine blockquotePass_id x hnl ?_
    rw [hx0]
    exact isPrefixOf_false_of_head (Ne.symm (hx0ne '>' (by decide)))
  -- ordered list items
  have hord : orderedPass x = x := by
    unfold orderedPass
    refine listItemGo_id _ x (fun t ht => ?_) x.length true
    refine tryOrderedItem_none_of_no_dot (fun hdot => ?_)
    exact absurd (hchar ht '.' hdot) (by decide)
  -- unordered list items
  have hunord : unorderedPass x = x := by
    unfold unorderedPass
    refine listItemGo_id _ x (fun t ht => ?_) x.length true
    cases t with
    | nil => rfl
    | cons c t2 =>
      have hca := hchar ht c (List.mem_cons_self c t2)
      exact tryUnorderedItem_none_of_head (alnum_ne_of hca (by decide))
        (alnum_ne_of hca (by decide)) (alnum_ne_of hca (by decide))
  -- list wrapping
  have hwrap : liWrapPass x = x := by
    unfold liWrapPass
    refine liWrapGo_id x (fun t ht => ?_) x.length
    refine tryLiRun_none_of_not_li ?_
    cases t with
    | nil => rfl
    | cons c t2 =>
      exact isPrefixOf_false_of_head
        (Ne.symm (alnum_ne_of (hchar ht c (List.mem_cons_self c t2)) (by decide)))
  -- emphasis passes
  have hdelim : ∀ (d : Char) (ds pre post : List Char), Char.isAlphanum d = false →
      delimPass (d :: ds) pre post x = x := by
    intro d ds pre post hd
    unfold delimPass
    refine delimGo_id _ _ _ x (fun t ht => ?_) x.length
    cases t with
    | nil => rfl
    | cons c t2 =>
      exact isPrefixOf_false_of_head
        (Ne.symm (alnum_ne_of (hchar ht c (List.mem_cons_self c t2)) hd))
  -- inline code
  have hcode : inlineCodePass x = x := by
    unfold inlineCodePass
    refine inlineCodeGo_id x (fun t ht => ?_) x.length
    cases t with
    | nil => rfl
    | cons c t2 =>
      exact tryInlineCode_none_of_head
        (alnum_ne_of (hchar ht c (List.mem_cons_self c t2)) (by decide))
  -- links
  have hlink : linkPass x = x := by
    unfold linkPass
    refine linkGo_id x (fun t ht => ?_) x.length
    cases t with
    | nil => rfl
    | cons c t2 =>
      exact tryLink_none_of_head (alnum_ne_of (hchar ht c (List.mem_cons_self c t2)) (by decide))
  -- images
  have himg : imagePass x = x := by
    unfold imagePass
    refine imageGo_id x (fun t ht => ?_) x.length
    cases t with
    | nil => rfl
    | cons c t2 =>
      exact tryImage_none_of_head (alnum_ne_of (hchar ht c (List.mem_cons_self c t2)) (by decide))
  -- block assembly
  have hblocks : blocksStage x = '<' :: 'p' :: '>' :: (x ++ "</p>".data) := by
    unfold blocksStage
    rw [splitBlocks_single x (fun hmem => absurd (hx '\n' hmem) (by decide))]
    have htrim : jsTrimL x = x := jsTrimL_id x (fun c hc => alnum_not_space (hx c hc))
    have hbm : blockMap x = "<p>".data ++ nlToBr x ++ "</p>".data := by
      unfold blockMap
      rw [htrim, if_neg hne]
      rw [if_neg ?hbe]
      case hbe =>
        rw [hx0]
        rw [isBlockElem_false_of_head (hx0ne '<' (by decide))]
        simp
    rw [List.map_singleton, hbm, nlToBr_id x (fun hmem => absurd (hx '\n' hmem) (by decide))]
    simp [List.intercalate]
  -- cleanup passes on the wrapped paragraph
  have hsufp : ∀ t, t <:+ '<' :: 'p' :: '>' :: (x ++ "</p>".data) →
      "<p></p>".data.isPrefixOf t = false ∧ tryUnwrapP t = none := by
    intro t ht
    rcases suffix_wrapped ht with h1 | h1 | h1 | ⟨t2, hne2, hsuf2, heq2⟩ | h1
    · subst h1
      constructor
      · rw [hx0]
        simp [List.isPrefixOf, Ne.symm (hx0ne '<' (by decide))]
      · rw [hx0]
        exact tryUnwrapP_wrapped_nonlt (hx0ne '<' (by decide)) _
    · subst h1
      exact ⟨isPrefixOf_false_of_head (by decide),
        tryUnwrapP_none_of_not_p (isPrefixOf_false_of_head (by decide))⟩
    · subst h1
      exact ⟨isPrefixOf_false_of_head (by decide),
        tryUnwrapP_none_of_not_p (isPrefixOf_false_of_head (by decide))⟩
    · subst heq2
      obtain ⟨c, t3, hc⟩ := List.exists_cons_of_ne_nil hne2
      subst hc
      have hca := hchar hsuf2 c (List.mem_cons_self c t3)
      exact ⟨isPrefixOf_false_of_head (Ne.symm (alnum_ne_of hca (by decide))),
        tryUnwrapP_none_of_not_p
          (isPrefixOf_false_of_head (Ne.symm (alnum_ne_of hca (by decide))))⟩
    · rcases suffix_p4 h1 with h2 | h2 | h2 | h2 | h2 <;> subst h2 <;>
        exact ⟨by decide, by decide⟩
  have hclean1 : replaceAll "<p></p>".data [] ('<' :: 'p' :: '>' :: (x ++ "</p>".data)) =
      '<' :: 'p' :: '>' :: (x ++ "</p>".data) := by
    unfold replaceAll
    exact replaceAllGo_id _ _ _ (fun t ht => (hsufp t ht).1) _
  have hclean2 : unwrapPPass ('<' :: 'p' :: '>' :: (x ++ "</p>".data)) =
      '<' :: 'p' :: '>' :: (x ++ "</p>".data) := by
    unfold unwrapPPass
    exact unwrapPGo_id _ (fun t ht => (hsufp t ht).2) _
  -- assemble
  unfold parseMarkdownL
  rw [if_neg hne, hcb, hhead, hhr1, hhr2, hbq, hord, hunord, hwrap]
  rw [hdelim '*' _ _ _ (by decide), hdelim '*' _ _ _ (by decide),
    hdelim '_' _ _ _ (by decide), hdelim '*' _ _ _ (by decide),
    hdelim '_' _ _ _ (by decide)]
  rw [hcode, hlink, himg, hblocks, hclean1, hclean2]

theorem tryUnwrapP_double {x0 : Char} (h : x0 ≠ '<') (rest : List Char) :
    tryUnwrapP ('<' :: 'p' :: '>' :: '<' :: 'p' :: '>' :: x0 :: rest) = none := by
  unfold tryUnwrapP
  rw [if_pos (by simp [List.isPrefixOf])]
  show (if List.takeWhile (fun x => decide (x ≠ '>')) ('p' :: '>' :: x0 :: rest) = [] then none
    else
      match List.drop (List.takeWhile (fun x => decide (x ≠ '>')) ('p' :: '>' :: x0 :: rest)).length
          ('p' :: '>' :: x0 :: rest) with
      | '>' :: r2 =>
        if ['<', '/', 'p', '>'].isPrefixOf r2 = true then
          some ('<' :: List.takeWhile (fun x => decide (x ≠ '>')) ('p' :: '>' :: x0 :: rest) ++ ['>'],
            List.drop 4 r2)
        else none
      | _ => none) = none
  have hinner : List.takeWhile (fun x => decide (x ≠ '>')) ('p' :: '>' :: x0 :: rest) = ['p'] := by
    rw [List.takeWhile_cons, List.takeWhile_cons]
    simp
  rw [hinner]
  rw [if_neg (by simp)]
  show (if (['<', '/', 'p', '>'] : List Char).isPrefixOf (x0 :: rest) = true then
      some (('<' :: ['p'] ++ ['>'] : List Char), List.drop 4 (x0 :: rest)) else none) = none
  rw [if_neg]
  rw [List.isPrefixOf]
  simp [Ne.symm h]

theorem isBlockElem_ltpgt (t : List Char) : isBlockElem ('<' :: 'p' :: '>' :: t) = false := by
  have h1 : ('p' : Char).toLower = 'p' := by decide
  have h2 : ('>' : Char).toLower = '>' := by decide
  unfold isBlockElem
  dsimp only
  simp [ciPrefix, h1, h2]

theorem render_wrapped (x : List Char) (hne : x ≠ [])
    (hx : ∀ c ∈ x, Char.isAlphanum c = true) :
    parseMarkdownL ('<' :: 'p' :: '>' :: (x ++ "</p>".data)) =
      '<' :: 'p' :: '>' :: '<' :: 'p' :: '>' :: (x ++ "</p></p>".data) := by
  obtain ⟨x0, xr, hx0⟩ := List.exists_cons_of_ne_nil hne
  have hx0a : Char.isAlphanum x0 = true := hx x0 (by rw [hx0]; exact List.mem_cons_self _ _)
  have hx0ne : ∀ d : Char, Char.isAlphanum d = false → x0 ≠ d := fun d hd => alnum_ne_of hx0a hd
  -- every character of the wrapped paragraph avoids the trigger characters
  have hychar : ∀ c ∈ ('<' :: 'p' :: '>' :: (x ++ "</p>".data) : List Char),
      c ≠ backquote ∧ c ≠ '!' ∧ c ≠ '[' ∧ c ≠ '-' ∧ c ≠ '*' ∧ c ≠ '+' ∧ c ≠ '_' ∧
        c ≠ '.' ∧ c ≠ '\n' ∧ jsSpace c = false := by
    intro c hc
    have : c = '<' ∨ c = 'p' ∨ c = '>' ∨ c ∈ x ∨ c ∈ "</p>".data := by
      simpa [List.mem_cons, List.mem_append] using hc
    rcases this with h | h | h | h | h
    · subst h; refine ⟨by decide, by decide, by decide, by decide, by decide, by decide,
        by decide, by decide, by decide, by decide⟩
    · subst h; refine ⟨by decide, by decide, by decide, by decide, by decide, by decide,
        by decide, by decide, by decide, by decide⟩
    · subst h; refine ⟨by decide, by decide, by decide, by decide, by decide, by decide,
        by decide, by decide, by decide, by decide⟩
    · have ha := hx c h
      exact ⟨alnum_ne_of ha (by decide), alnum_ne_of ha (by decide),
        alnum_ne_of ha (by decide), alnum_ne_of ha (by decide),
        alnum_ne_of ha (by decide), alnum_ne_of ha (by decide),
        alnum_ne_of ha (by decide), alnum_ne_of ha (by decide),
        alnum_ne_of ha (by decide), alnum_not_space ha⟩
    · have : c = '<' ∨ c = '/' ∨ c = 'p' ∨ c = '>' := by
        simpa using h
      rcases this with h2 | h2 | h2 | h2 <;>
        (subst h2; exact ⟨by decide, by decide, by decide, by decide, by decide, by decide,
          by decide, by decide, by decide, by decide⟩)
  have hchar : ∀ {t : List Char}, t <:+ ('<' :: 'p' :: '>' :: (x ++ "</p>".data)) →
      ∀ c ∈ t, c ≠ backquote ∧ c ≠ '!' ∧ c ≠ '[' ∧ c ≠ '-' ∧ c ≠ '*' ∧ c ≠ '+' ∧ c ≠ '_' ∧
        c ≠ '.' ∧ c ≠ '\n' ∧ jsSpace c = false :=
    fun ht c hc => hychar c (ht.sublist.subset hc)
  have hnl : ∀ c ∈ ('<' :: 'p' :: '>' :: (x ++ "</p>".data) : List Char), c ≠ '\n' :=
    fun c hc => (hychar c hc).2.2.2.2.2.2.2.2.1
  -- stage 1: code blocks
  have hcb : codeBlockPass ('<' :: 'p' :: '>' :: (x ++ "</p>".data)) =
      '<' :: 'p' :: '>' :: (x ++ "</p>".data) := by
    unfold codeBlockPass
    refine codeBlockGo_id _ (fun t ht => ?_) _
    cases t with
    | nil => rfl
    | cons c t2 => exact tryFence_none_of_head (hchar ht c (List.mem_cons_self c t2)).1
  -- headings
  have hhead : headersStage ('<' :: 'p' :: '>' :: (x ++ "</p>".data)) =
      '<' :: 'p' :: '>' :: (x ++ "</p>".data) := by
    unfold headersStage
    rw [headerPass_id 6 _ _ _ hnl (isPrefixOf_false_of_head (by decide))]
    rw [headerPass_id 5 _ _ _ hnl (isPrefixOf_false_of_head (by decide))]
    rw [headerPass_id 4 _ _ _ hnl (isPrefixOf_false_of_head (by decide))]
    rw [headerPass_id 3 _ _ _ hnl (isPrefixOf_false_of_head (by decide))]
    rw [headerPass_id 2 _ _ _ hnl (isPrefixOf_false_of_head (by decide))]
    rw [headerPass_id 1 _ _ _ hnl (isPrefixOf_false_of_head (by decide))]
  -- horizontal rules
  have hhr1 : hrPass "---".data ('<' :: 'p' :: '>' :: (x ++ "</p>".data)) =
      '<' :: 'p' :: '>' :: (x ++ "</p>".data) := by
    refine hrPass_id _ _ hnl (fun he => ?_)
    injection he with h1 _
    exact absurd h1 (by decide)
  have hhr2 : hrPass "***".data ('<' :: 'p' :: '>' :: (x ++ "</p>".data)) =
      '<' :: 'p' :: '>' :: (x ++ "</p>".data) := by
    refine hrPass_id _ _ hnl (fun he => ?_)
    injection he with h1 _
    exact absurd h1 (by decide)
  -- blockquotes
  have hbq : blockquotePass ('<' :: 'p' :: '>' :: (x ++ "</p>".data)) =
      '<' :: 'p' :: '>' :: (x ++ "</p>".data) :=
    blockquotePass_id _ hnl (isPrefixOf_false_of_head (by decide))
  -- list items
  have hord : orderedPass ('<' :: 'p' :: '>' :: (x ++ "</p>".data)) =
      '<' :: 'p' :: '>' :: (x ++ "</p>".data) := by
    unfold orderedPass
    refine listItemGo_id _ _ (fun t ht => ?_) _ true
    exact tryOrderedItem_none_of_no_dot (fun hdot =>
      absurd rfl (hchar ht '.' hdot).2.2.2.2.2.2.2.1)
  have hunord : unorderedPass ('<' :: 'p' :: '>' :: (x ++ "</p>".data)) =
      '<' :: 'p' :: '>' :: (x ++ "</p>".data) := by
    unfold unorderedPass
    refine listItemGo_id _ _ (fun t ht => ?_) _ true
    cases t with
    | nil => rfl
    | cons c t2 =>
      have hf := hchar ht c (List.mem_cons_self c t2)
      exact tryUnorderedItem_none_of_head hf.2.2.2.1 hf.2.2.2.2.1 hf.2.2.2.2.2.1
  -- list wrapping: no occurrence of `<li>`
  have hwrap : liWrapPass ('<' :: 'p' :: '>' :: (x ++ "</p>".data)) =
      '<' :: 'p' :: '>' :: (x ++ "</p>".data) := by
    unfold liWrapPass
    refine liWrapGo_id _ (fun t ht => ?_) _
    refine tryLiRun_none_of_not_li ?_
    rcases suffix_wrapped ht with h1 | h1 | h1 | ⟨t2, hne2, hsuf2, heq2⟩ | h1
    · subst h1; simp [List.isPrefixOf]
    · subst h1; exact isPrefixOf_false_of_head (by decide)
    · subst h1; exact isPrefixOf_false_of_head (by decide)
    · subst heq2
      obtain ⟨c, t3, hc⟩ := List.exists_cons_of_ne_nil hne2
      subst hc
      exact isPrefixOf_false_of_head
        (Ne.symm (alnum_ne_of (hx c (hsuf2.sublist.subset (List.mem_cons_self c t3))) (by decide)))
    · rcases suffix_p4 h1 with h2 | h2 | h2 | h2 | h2 <;> subst h2 <;> decide
  -- emphasis
  have hdelim : ∀ (d : Char) (ds pre post : List Char),
      (∀ c ∈ ('<' :: 'p' :: '>' :: (x ++ "</p>".data) : List Char), c ≠ d) →
      delimPass (d :: ds) pre post ('<' :: 'p' :: '>' :: (x ++ "</p>".data)) =
        '<' :: 'p' :: '>' :: (x ++ "</p>".data) := by
    intro d ds pre post hd
    unfold delimPass
    refine delimGo_id _ _ _ _ (fun t ht => ?_) _
    cases t with
    | nil => rfl
    | cons c t2 =>
      exact isPrefixOf_false_of_head
        (Ne.symm (hd c (ht.sublist.subset (List.mem_cons_self c t2))))
  -- inline code, links, images
  have hcode : inlineCodePass ('<' :: 'p' :: '>' :: (x ++ "</p>".data)) =
      '<' :: 'p' :: '>' :: (x ++ "</p>".data) := by
    unfold inlineCodePass
    refine inlineCodeGo_id _ (fun t ht => ?_) _
    cases t with
    | nil => rfl
    | cons c t2 => exact tryInlineCode_none_of_head (hchar ht c (List.mem_cons_self c t2)).1
  have hlink : linkPass ('<' :: 'p' :: '>' :: (x ++ "</p>".data)) =
      '<' :: 'p' :: '>' :: (x ++ "</p>".data) := by
    unfold linkPass
    refine linkGo_id _ (fun t ht => ?_) _
    cases t with
    | nil => rfl
    | cons c t2 => exact tryLink_none_of_head (hchar ht c (List.mem_cons_self c t2)).2.2.1
  have himg : imagePass ('<' :: 'p' :: '>' :: (x ++ "</p>".data)) =
      '<' :: 'p' :: '>' :: (x ++ "</p>".data) := by
    unfold imagePass
    refine imageGo_id _ (fun t ht => ?_) _
    cases t with
    | nil => rfl
    | cons c t2 => exact tryImage_none_of_head (hchar ht c (List.mem_cons_self c t2)).2.1
  -- block assembly: the paragraph is wrapped once more
  have hblocks : blocksStage ('<' :: 'p' :: '>' :: (x ++ "</p>".data)) =
      '<' :: 'p' :: '>' :: ('<' :: 'p' :: '>' :: (x ++ "</p>".data) ++ "</p>".data) := by
    unfold blocksStage
    rw [splitBlocks_single _ (fun hmem => absurd rfl (hnl '\n' hmem))]
    have htrim : jsTrimL ('<' :: 'p' :: '>' :: (x ++ "</p>".data)) =
        '<' :: 'p' :: '>' :: (x ++ "</p>".data) :=
      jsTrimL_id _ (fun c hc => (hychar c hc).2.2.2.2.2.2.2.2.2)
    have hbm : blockMap ('<' :: 'p' :: '>' :: (x ++ "</p>".data)) =
        "<p>".data ++ nlToBr ('<' :: 'p' :: '>' :: (x ++ "</p>".data)) ++ "</p>".data := by
      unfold blockMap
      rw [htrim, if_neg (by simp), if_neg (by rw [isBlockElem_ltpgt]; simp)]
    rw [List.map_singleton, hbm,
      nlToBr_id _ (fun hmem => absurd rfl (hnl '\n' hmem))]
    simp [List.intercalate]
  -- cleanup passes on the doubly wrapped paragraph
  have hsufp2 : ∀ t, t <:+ '<' :: 'p' :: '>' :: ('<' :: 'p' :: '>' :: (x ++ "</p>".data) ++ "</p>".data) →
      "<p></p>".data.isPrefixOf t = false ∧ tryUnwrapP t = none := by
    intro t ht
    rcases suffix_wrapped ht with h1 | h1 | h1 | ⟨t2, hne2, hsuf2, heq2⟩ | h1
    · subst h1
      constructor
      · simp [List.isPrefixOf]
      · show tryUnwrapP ('<' :: 'p' :: '>' :: '<' :: 'p' :: '>' :: ((x ++ "</p>".data) ++ "</p>".data)) = none
        rw [List.append_assoc, hx0]
        exact tryUnwrapP_double (hx0ne '<' (by decide)) _
    · subst h1
      exact ⟨isPrefixOf_false_of_head (by decide),
        tryUnwrapP_none_of_not_p (isPrefixOf_false_of_head (by decide))⟩
    · subst h1
      exact ⟨isPrefixOf_false_of_head (by decide),
        tryUnwrapP_none_of_not_p (isPrefixOf_false_of_head (by decide))⟩
    · subst heq2
      rcases suffix_wrapped hsuf2 with h2 | h2 | h2 | ⟨t3, hne3, hsuf3, heq3⟩ | h2
      · subst h2
        constructor
        · show ("<p></p>".data).isPrefixOf ('<' :: 'p' :: '>' :: ((x ++ "</p>".data) ++ "</p>".data)) = false
          rw [List.append_assoc, hx0]
          simp [List.isPrefixOf, Ne.symm (hx0ne '<' (by decide))]
        · show tryUnwrapP ('<' :: 'p' :: '>' :: ((x ++ "</p>".data) ++ "</p>".data)) = none
          rw [List.append_assoc, hx0]
          exact tryUnwrapP_wrapped_nonlt (hx0ne '<' (by decide)) _
      · subst h2
        exact ⟨isPrefixOf_false_of_head (by decide),
          tryUnwrapP_none_of_not_p (isPrefixOf_false_of_head (by decide))⟩
      · subst h2
        exact ⟨isPrefixOf_false_of_head (by decide),
          tryUnwrapP_none_of_not_p (isPrefixOf_false_of_head (by decide))⟩
      · subst heq3
        obtain ⟨c, t4, hc⟩ := List.exists_cons_of_ne_nil hne3
        subst hc
        have hca := hx c (hsuf3.sublist.subset (List.mem_cons_self c t4))
        constructor
        · show ("<p></p>".data).isPrefixOf ((c :: t4 ++ "</p>".data) ++ "</p>".data) = false
          exact isPrefixOf_false_of_head (Ne.symm (alnum_ne_of hca (by decide)))
        · show tryUnwrapP ((c :: t4 ++ "</p>".data) ++ "</p>".data) = none
          exact tryUnwrapP_none_of_not_p
            (isPrefixOf_false_of_head (Ne.symm (alnum_ne_of hca (by decide))))
      · rcases suffix_p4 h2 with h3 | h3 | h3 | h3 | h3 <;> subst h3
        · exact ⟨by decide, by decide⟩
        · exact ⟨by decide, by decide⟩
        · exact ⟨by decide, by decide⟩
        · exact ⟨by decide, by decide⟩
        · exact absurd rfl hne2
    · rcases suffix_p4 h1 with h2 | h2 | h2 | h2 | h2 <;> subst h2 <;>
        exact ⟨by decide, by decide⟩
  have hclean1 : replaceAll "<p></p>".data []
      ('<' :: 'p' :: '>' :: ('<' :: 'p' :: '>' :: (x ++ "</p>".data) ++ "</p>".data)) =
      '<' :: 'p' :: '>' :: ('<' :: 'p' :: '>' :: (x ++ "</p>".data) ++ "</p>".data) := by
    unfold replaceAll
    exact replaceAllGo_id _ _ _ (fun t ht => (hsufp2 t ht).1) _
  have hclean2 : unwrapPPass
      ('<' :: 'p' :: '>' :: ('<' :: 'p' :: '>' :: (x ++ "</p>".data) ++ "</p>".data)) =
      '<' :: 'p' :: '>' :: ('<' :: 'p' :: '>' :: (x ++ "</p>".data) ++ "</p>".data) := by
    unfold unwrapPPass
    exact unwrapPGo_id _ (fun t ht => (hsufp2 t ht).2) _
  -- assemble
  unfold parseMarkdownL
  rw [if_neg (by simp)]
  rw [hcb, hhead, hhr1, hhr2, hbq, hord, hunord, hwrap]
  rw [hdelim '*' _ _ _ (fun c hc => (hychar c hc).2.2.2.2.1),
    hdelim '*' _ _ _ (fun c hc => (hychar c hc).2.2.2.2.1),
    hdelim '_' _ _ _ (fun c hc => (hychar c hc).2.2.2.2.2.2.1),
    hdelim '*' _ _ _ (fun c hc => (hychar c hc).2.2.2.2.1),
    hdelim '_' _ _ _ (fun c hc => (hychar c hc).2.2.2.2.2.2.1)]
  rw [hcode, hlink, himg, hblocks, hclean1, hclean2]
  rw [List.cons_append, List.cons_append, List.cons_append, List.append_assoc]
  rfl

/-! ## Claim theorems -/

/-- C2: evaluating the renderer at the failing input `"1. a\n2. b"`.
The run of list items produced from the ordered-list lines is wrapped in
an *unordered* list element; moreover, the source's `isOrdered` test
(`/^\d+\./.test(match)`) is applied to the already-replaced text, which
always starts with `<li>`, so the digit-dot test fails on *every*
matched run and the `<ol>` branch is unreachable. -/
theorem c2_ordered_run_gets_ul :
    parseMarkdown "1. a\n2. b" = "<ul><li>a</li>\n<li>b</li></ul>" ∧
    ∀ s m r2, tryLiRun s = some (m, r2) → startsDigitDot m = false :=
  ⟨by decide, tryLiRun_never_digit⟩

/-- C2 witness: the unreachability statement applied at a concrete
matched run. -/
theorem c2_ordered_run_gets_ul_witness :
    startsDigitDot "<li>a</li>".data = false :=
  c2_ordered_run_gets_ul.2 "<li>a</li>".data "<li>a</li>".data [] (by decide)

/-- C5 counterexample: `render` is not idempotent on a rendered
plain-text paragraph — re-rendering `"hello"`'s output changes it. -/
theorem c5_not_idempotent :
    parseMarkdown (parseMarkdown "hello") ≠ parseMarkdown "hello" := by decide

/-- C5 (amended): for every nonempty alphanumeric plain-text input,
`render` produces a single paragraph element, but it is not idempotent
there — the block-assembly stage does not recognize `<p>` as a
structural element, so re-rendering wraps the paragraph in a second
paragraph element instead of leaving it unchanged. -/
theorem c5_rerender_wraps_again (x : String) (hne : x.data ≠ [])
    (hx : ∀ c ∈ x.data, Char.isAlphanum c = true) :
    parseMarkdown x = ⟨"<p>".data ++ x.data ++ "</p>".data⟩ ∧
    parseMarkdown (parseMarkdown x) = ⟨"<p><p>".data ++ x.data ++ "</p></p>".data⟩ ∧
    parseMarkdown (parseMarkdown x) ≠ parseMarkdown x := by
  have h1 : parseMarkdownL x.data = '<' :: 'p' :: '>' :: (x.data ++ "</p>".data) :=
    render_plain x.data hne hx
  have hfst : parseMarkdown x = ⟨"<p>".data ++ x.data ++ "</p>".data⟩ := by
    show (⟨parseMarkdownL x.data⟩ : String) = _
    rw [h1]
    rfl
  have hsnd : parseMarkdown (parseMarkdown x) =
      ⟨"<p><p>".data ++ x.data ++ "</p></p>".data⟩ := by
    rw [hfst]
    show (⟨parseMarkdownL ("<p>".data ++ x.data ++ "</p>".data)⟩ : String) = _
    have h2 : parseMarkdownL ('<' :: 'p' :: '>' :: (x.data ++ "</p>".data)) =
        '<' :: 'p' :: '>' :: '<' :: 'p' :: '>' :: (x.data ++ "</p></p>".data) :=
     render_wrapped x.data hne hx
    rw [show ("<p>".data ++ x.data ++ "</p>".data : List Char) =
      '<' :: 'p' :: '>' :: (x.data ++ "</p>".data) from rfl, h2]
    rfl
  refine ⟨hfst, hsnd, ?_⟩
  rw [hsnd, hfst]
  intro he
  have hlen := congrArg (fun s : String => s.data.length) he
  simp [List.length_append] at hlen

/-- C5 witness: the general re-wrap theorem applied at the spec's own
plain-text example. -/
theorem c5_rerender_wraps_again_witness :
    ("hello" : String).data ≠ [] ∧
    parseMarkdown "hello" = "<p>hello</p>" ∧
    parseMarkdown (parseMarkdown "hello") = "<p><p>hello</p></p>" := by
  have h := c5_rerender_wraps_again "hello" (by decide) (by decide)
  refine ⟨by decide, ?_, ?_⟩
  · rw [h.1]; decide
  · rw [h.2.1]; decide

/-- C1 counterexample: for a body consisting of a single fenced code
block whose content has a line starting with `# `, the full render does
not equal the fence-extraction stage's output — the heading pass fires
inside the already-emitted code element, so transformations other than
the three-character escape do alter text inside a fenced block. -/
theorem c1_fence_content_not_inert :
    codeBlockPass "```\nx\n# H\n```".data = "<pre><code>x\n# H\n</code></pre>".data ∧
    parseMarkdown "```\nx\n# H\n```" = "<pre><code>x\n<h1>H</h1>\n</code></pre>" ∧
    parseMarkdown "```\nx\n# H\n```" ≠ ⟨codeBlockPass "```\nx\n# H\n```".data⟩ := by
  decide

/-- C1 (amended): the extraction stage escapes the content of a fenced
code block for exactly the three characters `&`, `<`, `>` — for any
backtick-free content `c`, the fence-extraction pass maps the fenced
block to `<pre><code>` + the three-character escape of `c` +
`</code></pre>` — and a fenced block containing `<script>` renders
end-to-end as the escaped sequence `&lt;script&gt;` inside a code
element.  (Later pipeline stages may still transform the escaped
content, per the counterexample.) -/
theorem c1_fence_escape (c : List Char) (h : backquote ∉ c) :
    codeBlockPass ("```\n".data ++ c ++ "```".data) =
      "<pre><code>".data ++ escapeHtmlL c ++ "</code></pre>".data ∧
    parseMarkdown "```\n<script>\n```" = "<pre><code>&lt;script&gt;\n</code></pre>" := by
  constructor
  · have hs : "```\n".data ++ c ++ "```".data =
        backquote :: backquote :: backquote :: '\n' ::
          (c ++ [backquote, backquote, backquote]) := by
      have h4 : "```\n".data = [backquote, backquote, backquote, '\n'] := by decide
      have h3 : "```".data = [backquote, backquote, backquote] := by decide
      rw [h4, h3]
      rfl
    have hfence : tryFence (backquote :: backquote :: backquote :: '\n' ::
        (c ++ [backquote, backquote, backquote])) = some (c, []) := by
      show (if (decide (backquote = backquote) && decide (backquote = backquote) &&
            decide (backquote = backquote)) = true then
          let afterLang :=
            List.dropWhile isWordChar ('\n' :: (c ++ [backquote, backquote, backquote]))
          match afterLang with
          | '\n' :: rest2 =>
            match findSub [backquote, backquote, backquote] rest2 with
            | some i => some (List.take i rest2, List.drop (i + 3) rest2)
            | none => none
          | _ => none
        else none) = some (c, [])
      rw [if_pos (by decide)]
      have hdw : List.dropWhile isWordChar
          ('\n' :: (c ++ [backquote, backquote, backquote])) =
          '\n' :: (c ++ [backquote, backquote, backquote]) := by
        rw [List.dropWhile_cons]
        simp [isWordChar]
      simp only [hdw, findSub_append_bq c h]
      rw [List.take_left]
      congr 1
      simp [List.drop_append]
    rw [hs]
    unfold codeBlockPass
    have hlen : (backquote :: backquote :: backquote :: '\n' ::
        (c ++ [backquote, backquote, backquote])).length = c.length + 6 + 1 := by
      simp [List.length_append]
    rw [hlen]
    simp only [codeBlockGo, hfence, codeBlockGo_nil, List.append_nil]
  · decide

/-- C1 witness: the general fence-escape theorem applied at the spec's
own `<script>` content. -/
theorem c1_fence_escape_witness :
    backquote ∉ "<script>\n".data ∧
    codeBlockPass ("```\n".data ++ "<script>\n".data ++ "```".data) =
      "<pre><code>".data ++ escapeHtmlL "<script>\n".data ++ "</code></pre>".data :=
  ⟨by decide, (c1_fence_escape "<script>\n".data (by decide)).1⟩

/-- C3 counterexample: an input that begins with the delimiter marker
and contains no closing delimiter *line* (no later line consists solely
of `---`), yet `parse` does not return an empty header with the whole
input as body — the code closes the header at the mere occurrence of
`"\n---"`, here produced by the line `--- x`. -/
theorem c3_no_sole_delimiter_line_still_split :
    parseFrontmatter "---\na: b\n--- x\nbody" = ([("a", FmValue.str "b")], "x\nbody") ∧
    ((splitCRLF "---\na: b\n--- x\nbody".data).drop 1).all
      (fun l => decide (l ≠ "---".data)) = true ∧
    ([("a", FmValue.str "b")] : List (String × FmValue)) ≠ [] ∧
    ("x\nbody" : String) ≠ "---\na: b\n--- x\nbody" := by decide

/-- C3 (amended): `parse` returns an empty header together with the
whole input as body whenever the input does not start with the delimiter
marker, and likewise whenever no occurrence of newline-plus-marker
exists at or after offset 3 (which is the code's notion of "no closing
delimiter"); it never fails. -/
theorem c3_parse_degrades_gracefully (s : String) :
    (fmOpenL s.data = false → parseFrontmatter s = ([], s)) ∧
    (findSub "\n---".data (s.data.drop 3) = none → parseFrontmatter s = ([], s)) := by
  constructor
  · intro h
    unfold parseFrontmatter parseFrontmatterL
    rw [h]
    simp
  · intro h
    have hc : fmCloseIdx s.data = none := by
      unfold fmCloseIdx
      rw [h]
      rfl
    unfold parseFrontmatter parseFrontmatterL
    rw [hc]
    by_cases ho : fmOpenL s.data <;> simp [ho]

/-- C3 witness: the degradation theorem applied to a marker-free input
and to an input whose header is never closed. -/
theorem c3_parse_degrades_witness :
    parseFrontmatter "just a body" = ([], "just a body") ∧
    parseFrontmatter "---\nnever closed" = ([], "---\nnever closed") :=
  ⟨(c3_parse_degrades_gracefully "just a body").1 (by decide),
   (c3_parse_degrades_gracefully "---\nnever closed").2 (by decide)⟩

/-- C4 counterexample: the header is closed by the line `--- x`, which
merely begins with the marker (the claim says only a line consisting
solely of `---` closes it), and `trimStart` removes the leading spaces
of the first body line (the claim says they are preserved). -/
theorem c4_close_and_trim_divergence :
    (parseFrontmatter "---\n--- x\n---\nbody" = ([], "x\n---\nbody") ∧
      ("x\n---\nbody" : String) ≠ "body") ∧
    (parseFrontmatter "---\na: b\n---\n  body" = ([("a", FmValue.str "b")], "body") ∧
      ("body" : String) ≠ "  body") := by decide

/-- C4 (amended): when the input begins with the marker, the header is
closed at the *first* occurrence of newline-plus-marker at or after
offset 3 — a line that merely begins with the marker also closes it —
and the body is everything after those four characters with *all*
leading whitespace stripped. -/
theorem c4_close_at_first_marker (s : String) (i : Nat)
    (hopen : fmOpenL s.data = true) (hclose : fmCloseIdx s.data = some i) :
    (3 ≤ i ∧ "\n---".data.isPrefixOf (s.data.drop i) = true ∧
      ∀ j, 3 ≤ j → j < i → "\n---".data.isPrefixOf (s.data.drop j) = false) ∧
    parseFrontmatter s =
      (parseFmBlock (jsTrimL ((s.data.drop 3).take (i - 3))),
        ⟨jsTrimStartL (s.data.drop (i + 4))⟩) := by
  obtain ⟨n, hn, hi⟩ : ∃ n, findSub "\n---".data (s.data.drop 3) = some n ∧ i = n + 3 := by
    unfold fmCloseIdx at hclose
    cases hf : findSub "\n---".data (s.data.drop 3) with
    | none => rw [hf] at hclose; cases hclose
    | some n =>
      rw [hf] at hclose
      simp only [Option.map_some', Option.some.injEq] at hclose
      exact ⟨n, rfl, hclose.symm⟩
  obtain ⟨h1, h2⟩ := findSub_spec _ _ _ hn
  subst hi
  constructor
  · refine ⟨by omega, ?_, ?_⟩
    · rw [show s.data.drop (n + 3) = (s.data.drop 3).drop n by
        rw [List.drop_drop]; congr 1; omega]
      exact h1
    · intro j h3 hj
      rw [show s.data.drop j = (s.data.drop 3).drop (j - 3) by
        rw [List.drop_drop]; congr 1; omega]
      exact h2 (j - 3) (by omega)
  · unfold parseFrontmatter parseFrontmatterL
    rw [hopen]
    simp only [fmCloseIdx, hn, Option.map_some']
    rfl

/-- C4 witness: the amended closing rule applied at a concrete document. -/
theorem c4_close_at_first_marker_witness :
    parseFrontmatter "---\nk: v\n---\nbody" = ([("k", FmValue.str "v")], "body") := by
  rw [(c4_close_at_first_marker "---\nk: v\n---\nbody" 8 (by decide) (by decide)).2]
  decide

/-- C6 counterexample: a header written `globs: *.ts` yields a *scalar*
string in the derived `globs` field — JS `frontmatter.globs || []` keeps
any truthy value, so the field is not always a list. -/
theorem c6_scalar_globs_survive :
    fmGet (mkGuide "g.mdc" "---\nglobs: *.ts\n---\nbody").frontmatter "globs" =
      some (FmValue.str "*.ts") ∧
    (mkGuide "g.mdc" "---\nglobs: *.ts\n---\nbody").globs = FmValue.str "*.ts" ∧
    FmValue.isList (mkGuide "g.mdc" "---\nglobs: *.ts\n---\nbody").globs = false := by
  decide

/-- C6 (amended): the derived `globs` field is the empty list when the
header has no `globs` key or its value is falsy, the header's list when
the key holds a list, and otherwise the header's scalar value verbatim
(a truthy string or `true` survives as a non-list). -/
theorem c6_globs_derivation (file content : String) :
    (fmGet (parseFrontmatter content).1 "globs" = none →
      (mkGuide file content).globs = FmValue.list []) ∧
    (∀ xs, fmGet (parseFrontmatter content).1 "globs" = some (FmValue.list xs) →
      (mkGuide file content).globs = FmValue.list xs) ∧
    (∀ v, fmGet (parseFrontmatter content).1 "globs" = some v → jsTruthy v = true →
      (mkGuide file content).globs = v) ∧
    (∀ v, fmGet (parseFrontmatter content).1 "globs" = some v → jsTruthy v = false →
      (mkGuide file content).globs = FmValue.list []) := by
  have hg : (mkGuide file content).globs = deriveGlobs (parseFrontmatter content).1 := rfl
  refine ⟨fun h => ?_, fun xs h => ?_, fun v h ht => ?_, fun v h ht => ?_⟩
  · rw [hg]; unfold deriveGlobs; rw [h]
  · rw [hg]; unfold deriveGlobs; rw [h]; rfl
  · rw [hg]; unfold deriveGlobs; rw [h]; simp [ht]
  · rw [hg]; unfold deriveGlobs; rw [h]; simp [ht]

/-- C6 witness: the derivation theorem applied to a guide whose header
opens `globs` as a list, and to one with no `globs` key. -/
theorem c6_globs_derivation_witness :
    (mkGuide "a.mdc" "---\nglobs:\n  - \"*.py\"\n---\nbody").globs =
      FmValue.list ["*.py"] ∧
    (mkGuide "b.mdc" "---\ndescription: d\n---\nbody").globs = FmValue.list [] :=
  ⟨(c6_globs_derivation "a.mdc" "---\nglobs:\n  - \"*.py\"\n---\nbody").2.1
      ["*.py"] (by decide),
   (c6_globs_derivation "b.mdc" "---\ndescription: d\n---\nbody").1 (by decide)⟩

/-- C7: within every collection assembled by `buildStack`, the guides
are a permutation of the directory-read guides, sorted by the source's
comparator (overview file first, then locale order on titles, modelled
by the abstract total preorder `lc`); any guide set that is already in
order — in particular any run of tied titles in original order — embeds
into the result unchanged (stable ties). -/
theorem c7_collection_sorted (lc : String → String → Ordering)
    (htrans : ∀ a b c : String, lc a b ≠ .gt → lc b c ≠ .gt → lc a c ≠ .gt)
    (htotal : ∀ a b : String, lc a b ≠ .gt ∨ lc b a ≠ .gt)
    (fsys : FileSystem) (cfg : StackConfig) (raw : List Guide) (st : Stack)
    (hraw : rawGuides fsys cfg = .ok raw)
    (hst : buildStack lc fsys cfg = .ok st) :
    st.guides = sortGuides lc raw ∧
    st.guides.Perm raw ∧
    st.guides.Pairwise (fun a b => guideLe lc a b = true) ∧
    st.guides.Pairwise (fun a b => b.fileName = "README.md" → a.fileName = "README.md") ∧
    st.guides.Pairwise (fun a b => a.fileName ≠ "README.md" → b.fileName ≠ "README.md" →
      lc a.title b.title ≠ Ordering.gt) ∧
    ∀ sub : List Guide, sub.Pairwise (fun a b => guideLe lc a b = true) →
      sub.Sublist raw → sub.Sublist st.guides := by
  obtain ⟨raw2, hraw2, hguides⟩ := buildStack_ok hst
  rw [hraw] at hraw2
  cases hraw2
  have hperm : st.guides.Perm raw := by
    rw [hguides]
    exact List.mergeSort_perm raw (guideLe lc)
  have hsorted : st.guides.Pairwise (fun a b => guideLe lc a b = true) := by
    rw [hguides]
    exact List.sorted_mergeSort (guideLe_trans htrans) (guideLe_total htotal) raw
  refine ⟨hguides, hperm, hsorted, ?_, ?_, ?_⟩
  · refine hsorted.imp ?_
    intro a b hab hbR
    by_contra haR
    unfold guideLe at hab
    rw [if_neg haR, if_pos hbR] at hab
    cases hab
  · refine hsorted.imp ?_
    intro a b hab haR hbR
    unfold guideLe at hab
    rw [if_neg haR, if_neg hbR] at hab
    exact of_decide_eq_true hab
  · intro sub hpw hsub
    rw [hguides]
    exact List.sublist_mergeSort (guideLe_trans htrans) (guideLe_total htotal) hpw hsub

/-- C7 witness: the sort invariant applied to a concrete collection
read from `exampleFs` with a degenerate (everything-ties) locale
comparator; the guide order is a stable permutation of the two `.mdc`
documents read from the directory. -/
theorem c7_collection_sorted_witness :
    exampleStack.guides = sortGuides eqLocale exampleRaw ∧
    exampleStack.guides.Perm exampleRaw :=
  have h := c7_collection_sorted eqLocale
    (fun _ _ _ _ _ => by simp [eqLocale])
    (fun _ _ => Or.inl (by simp [eqLocale]))
    exampleFs exampleCfg exampleRaw exampleStack rfl rfl
  ⟨h.1, h.2.1⟩

/-! Auxiliary lemmas for the server's URL/path normalization: the URL
path state never emits a dot segment, so the join of the document root
with a parsed pathname always keeps the root as a prefix. -/

theorem splitOnChar_ne_nil (sep : Char) (l : List Char) : splitOnChar sep l ≠ [] := by
  cases l with
  | nil => simp [splitOnChar]
  | cons c rest =>
    unfold splitOnChar
    by_cases hc : c = sep
    · simp [hc]
    · simp only [if_neg hc]
      match splitOnChar sep rest with
      | [] => simp
      | seg :: segs => simp

theorem splitOnChar_append_sep (sep : Char) (a b : List Char) :
    splitOnChar sep (a ++ sep :: b) = splitOnChar sep a ++ splitOnChar sep b := by
  induction a with
  | nil => simp [splitOnChar]
  | cons c rest ih =>
    by_cases hc : c = sep
    · simp only [List.cons_append, splitOnChar, if_pos hc, List.append_eq, ih,
        List.nil_append]
    · simp only [List.cons_append, splitOnChar, if_neg hc, List.append_eq]
      rw [ih]
      have hne := splitOnChar_ne_nil sep rest
      rcases hrw : splitOnChar sep rest with _ | ⟨seg, segs⟩
      · exact absurd hrw hne
      · simp

theorem intercalate_cons_cons (sep x y : List Char) (zs : List (List Char)) :
    List.intercalate sep (x :: y :: zs) = x ++ sep ++ List.intercalate sep (y :: zs) := by
  simp [List.intercalate, List.intersperse]

theorem intercalate_single (sep x : List Char) :
    List.intercalate sep [x] = x := by
  simp [List.intercalate, List.intersperse]

theorem intercalate_splitOnChar (sep : Char) (l : List Char) :
    List.intercalate [sep] (splitOnChar sep l) = l := by
  induction l with
  | nil => simp [splitOnChar, intercalate_single]
  | cons c rest ih =>
    have hne := splitOnChar_ne_nil sep rest
    by_cases hc : c = sep
    · simp only [splitOnChar, if_pos hc]
      rcases hrw : splitOnChar sep rest with _ | ⟨seg, segs⟩
      · exact absurd hrw hne
      · rw [hrw] at ih
        rw [intercalate_cons_cons, ih, hc]
        simp
    · simp only [splitOnChar, if_neg hc]
      rcases hrw : splitOnChar sep rest with _ | ⟨seg, segs⟩
      · exact absurd hrw hne
      · rw [hrw] at ih
        dsimp only
        cases segs with
        | nil =>
          rw [intercalate_single] at ih ⊢
          rw [ih]
        | cons s2 ss =>
          rw [intercalate_cons_cons] at ih
          rw [intercalate_cons_cons, List.cons_append, List.cons_append, ih]

theorem splitOnChar_intercalate (sep : Char) (segs : List (List Char))
    (hne : segs ≠ []) (hns : ∀ s ∈ segs, sep ∉ s) :
    splitOnChar sep (List.intercalate [sep] segs) = segs := by
  induction segs with
  | nil => exact absurd rfl hne
  | cons x rest ih =>
    have hx : ∀ c ∈ x, c ≠ sep :=
      fun c hc hceq => absurd (hceq ▸ hc) (hns x (by simp))
    cases rest with
    | nil =>
      rw [intercalate_single, splitOnChar_single sep x hx]
    | cons y zs =>
      rw [intercalate_cons_cons]
      have hsplit : x ++ [sep] ++ List.intercalate [sep] (y :: zs)
          = x ++ sep :: List.intercalate [sep] (y :: zs) := by simp
      rw [hsplit, splitOnChar_append_sep,
        ih (by simp) (fun s hs => hns s (by simp [hs])),
        splitOnChar_single sep x hx]
      rfl

theorem foldl_normStep_clean (segs : List (List Char)) (st : List (List Char))
    (h : ∀ s ∈ segs, s ≠ ['.'] ∧ s ≠ ['.', '.']) :
    segs.foldl normStep st = st ++ segs.filter (fun s => !s.isEmpty) := by
  induction segs generalizing st with
  | nil => simp
  | cons s rest ih =>
    have hs := h s (by simp)
    by_cases hnil : s = []
    · subst hnil
      rw [List.foldl_cons, show normStep st [] = st from rfl]
      rw [ih st (fun t ht => h t (by simp [ht]))]
      simp
    · rw [List.foldl_cons, show normStep st s = st ++ [s] by
        unfold normStep
        rw [if_neg (by simp [hnil, hs.1]), if_neg hs.2]]
      rw [ih (st ++ [s]) (fun t ht => h t (by simp [ht]))]
      rw [List.filter_cons, if_pos (by simp [hnil])]
      simp

theorem stepSeg_mem (buf : List Char) (path : List (List Char)) (noSlash : Bool)
    (s : List Char) (hs : s ∈ stepSeg buf path noSlash) :
    s ∈ path ∨ s = [] ∨
      (s = buf ∧ isSingleDotSeg buf = false ∧ isDoubleDotSeg buf = false) := by
  unfold stepSeg at hs
  by_cases hd : isDoubleDotSeg buf
  · rw [if_pos hd] at hs
    cases noSlash with
    | true =>
      simp only [if_pos rfl] at hs
      rcases List.mem_append.mp hs with h1 | h2
      · exact Or.inl ((List.dropLast_sublist path).subset h1)
      · exact Or.inr (Or.inl (by simpa using h2))
    | false =>
      simp only [Bool.false_eq_true, if_neg] at hs
      exact Or.inl ((List.dropLast_sublist path).subset hs)
  · rw [if_neg hd] at hs
    by_cases hsd : isSingleDotSeg buf
    · rw [if_pos hsd] at hs
      cases noSlash with
      | true =>
        simp only [if_pos rfl] at hs
        rcases List.mem_append.mp hs with h1 | h2
        · exact Or.inl h1
        · exact Or.inr (Or.inl (by simpa using h2))
      | false =>
        simp only [Bool.false_eq_true, if_neg] at hs
        exact Or.inl hs
    · rw [if_neg hsd] at hs
      rcases List.mem_append.mp hs with h1 | h2
      · exact Or.inl h1
      · exact Or.inr (Or.inr ⟨by simpa using h2, by simp [hsd], by simp [hd]⟩)

theorem pathStateGo_no_dots (input : List Char) (buf : List Char)
    (path : List (List Char)) (hp : ∀ s ∈ path, s ≠ ['.'] ∧ s ≠ ['.', '.']) :
    ∀ s ∈ pathStateGo input buf path, s ≠ ['.'] ∧ s ≠ ['.', '.'] := by
  induction input generalizing buf path with
  | nil =>
    intro s hs
    rcases stepSeg_mem buf path true s hs with h1 | h2 | ⟨hb, hsd, hdd⟩
    · exact hp s h1
    · subst h2; exact ⟨by simp, by simp⟩
    · subst hb
      refine ⟨fun he => ?_, fun he => ?_⟩
      · rw [he] at hsd; simp [isSingleDotSeg] at hsd
      · rw [he] at hdd; simp [isDoubleDotSeg] at hdd
  | cons c rest ih =>
    intro s hs
    unfold pathStateGo at hs
    by_cases hq : c = '?' ∨ c = '#'
    · rw [if_pos hq] at hs
      rcases stepSeg_mem buf path true s hs with h1 | h2 | ⟨hb, hsd, hdd⟩
      · exact hp s h1
      · subst h2; exact ⟨by simp, by simp⟩
      · subst hb
        refine ⟨fun he => ?_, fun he => ?_⟩
        · rw [he] at hsd; simp [isSingleDotSeg] at hsd
        · rw [he] at hdd; simp [isDoubleDotSeg] at hdd
    · rw [if_neg hq] at hs
      by_cases hsl : c = '/' ∨ c = '\\'
      · rw [if_pos hsl] at hs
        refine ih [] (stepSeg buf path false) ?_ s hs
        intro t ht
        rcases stepSeg_mem buf path false t ht with h1 | h2 | ⟨hb, hsd, hdd⟩
        · exact hp t h1
        · subst h2; exact ⟨by simp, by simp⟩
        · subst hb
          refine ⟨fun he => ?_, fun he => ?_⟩
          · rw [he] at hsd; simp [isSingleDotSeg] at hsd
          · rw [he] at hdd; simp [isDoubleDotSeg] at hdd
      · rw [if_neg hsl] at hs
        exact ih (buf ++ [c]) path hp s hs

theorem pathStateGo_no_slash (input : List Char) (buf : List Char)
    (path : List (List Char)) (hb : '/' ∉ buf) (hp : ∀ s ∈ path, '/' ∉ s) :
    ∀ s ∈ pathStateGo input buf path, '/' ∉ s := by
  induction input generalizing buf path with
  | nil =>
    intro s hs
    rcases stepSeg_mem buf path true s hs with h1 | h2 | ⟨hbe, _, _⟩
    · exact hp s h1
    · subst h2; simp
    · subst hbe; exact hb
  | cons c rest ih =>
    intro s hs
    unfold pathStateGo at hs
    by_cases hq : c = '?' ∨ c = '#'
    · rw [if_pos hq] at hs
      rcases stepSeg_mem buf path true s hs with h1 | h2 | ⟨hbe, _, _⟩
      · exact hp s h1
      · subst h2; simp
      · subst hbe; exact hb
    · rw [if_neg hq] at hs
      by_cases hsl : c = '/' ∨ c = '\\'
      · rw [if_pos hsl] at hs
        refine ih [] (stepSeg buf path false) (by simp) ?_ s hs
        intro t ht
        rcases stepSeg_mem buf path false t ht with h1 | h2 | ⟨hbe, _, _⟩
        · exact hp t h1
        · subst h2; simp
        · subst hbe; exact hb
      · rw [if_neg hsl] at hs
        refine ih (buf ++ [c]) path ?_ hp s hs
        intro hmem
        rcases List.mem_append.mp hmem with h1 | h2
        · exact hb h1
        · simp at h2
          exact hsl (Or.inl h2.symm)

theorem stepSeg_ne_nil_of_noSlash (buf : List Char) (path : List (List Char)) :
    stepSeg buf path true ≠ [] := by
  unfold stepSeg
  by_cases hd : isDoubleDotSeg buf
  · simp [hd]
  · by_cases hsd : isSingleDotSeg buf
    · simp [hd, hsd]
    · simp [hd, hsd]

theorem pathStateGo_ne_nil (input : List Char) (buf : List Char)
    (path : List (List Char)) : pathStateGo input buf path ≠ [] := by
  induction input generalizing buf path with
  | nil => exact stepSeg_ne_nil_of_noSlash buf path
  | cons c rest ih =>
    unfold pathStateGo
    by_cases hq : c = '?' ∨ c = '#'
    · rw [if_pos hq]
      exact stepSeg_ne_nil_of_noSlash buf path
    · rw [if_neg hq]
      by_cases hsl : c = '/' ∨ c = '\\'
      · rw [if_pos hsl]; exact ih [] (stepSeg buf path false)
      · rw [if_neg hsl]; exact ih (buf ++ [c]) path

theorem intercalate_append_ne_nil (sep : List Char) (a b : List (List Char))
    (ha : a ≠ []) (hb : b ≠ []) :
    List.intercalate sep (a ++ b)
      = List.intercalate sep a ++ sep ++ List.intercalate sep b := by
  induction a with
  | nil => exact absurd rfl ha
  | cons x rest ih =>
    cases rest with
    | nil =>
      rcases b with _ | ⟨y, bs⟩
      · exact absurd rfl hb
      · rw [List.singleton_append, intercalate_cons_cons, intercalate_single]
    | cons x2 xs =>
      have ih2 := ih (by simp)
      rw [List.cons_append] at ih2
      rw [List.cons_append, List.cons_append, intercalate_cons_cons, ih2,
        intercalate_cons_cons]
      simp

theorem isPrefixOf_append (a b : List Char) : a.isPrefixOf (a ++ b) = true := by
  induction a with
  | nil => simp [List.isPrefixOf]
  | cons c r ih => simp [List.isPrefixOf, ih]

theorem joinPath_segs_in_root (root : String) (segs : List (List Char))
    (hroot : rootNormal root = true) (hne : segs ≠ [])
    (hnd : ∀ s ∈ segs, s ≠ ['.'] ∧ s ≠ ['.', '.'])
    (hns : ∀ s ∈ segs, '/' ∉ s) :
    strStartsWith (joinPath root ⟨'/' :: List.intercalate ['/'] segs⟩) root = true ∧
    escapesRootSpec root (joinPath root ⟨'/' :: List.intercalate ['/'] segs⟩) = false := by
  obtain ⟨rd⟩ := root
  have hshape : ∃ rest, rd = '/' :: rest ∧ (splitOnChar '/' rest).all normalSeg = true := by
    unfold rootNormal at hroot
    split at hroot
    next rest heq => exact ⟨rest, by simpa using heq, hroot⟩
    next => exact absurd hroot (by simp)
  obtain ⟨rest, hrd, hall⟩ := hshape
  subst hrd
  have hrne : splitOnChar '/' rest ≠ [] := splitOnChar_ne_nil '/' rest
  have hrall : ∀ s ∈ splitOnChar '/' rest, normalSeg s = true :=
    List.all_eq_true.mp hall
  have hrinter : List.intercalate ['/'] (splitOnChar '/' rest) = rest :=
    intercalate_splitOnChar '/' rest
  have hsplit : splitOnChar '/'
        ((String.mk ('/' :: rest)).data ++ '/' :: (String.mk ('/' :: List.intercalate ['/'] segs)).data)
      = ([] :: splitOnChar '/' rest) ++ ([] :: segs) := by
    show splitOnChar '/' (('/' :: rest) ++ '/' :: ('/' :: List.intercalate ['/'] segs))
      = ([] :: splitOnChar '/' rest) ++ ([] :: segs)
    rw [splitOnChar_append_sep '/' ('/' :: rest) ('/' :: List.intercalate ['/'] segs)]
    rw [show splitOnChar '/' ('/' :: rest) = [] :: splitOnChar '/' rest by
      simp [splitOnChar]]
    rw [show splitOnChar '/' ('/' :: List.intercalate ['/'] segs)
        = [] :: splitOnChar '/' (List.intercalate ['/'] segs) by simp [splitOnChar]]
    rw [splitOnChar_intercalate '/' segs hne hns]
  have hrfilter : (splitOnChar '/' rest).filter (fun s => !s.isEmpty) = splitOnChar '/' rest := by
    apply List.filter_eq_self.mpr
    intro s hs
    have := hrall s hs
    unfold normalSeg at this
    simp only [Bool.and_eq_true, decide_eq_true_eq] at this
    simp [this.1.1]
  have hrdots : ∀ s ∈ splitOnChar '/' rest, s ≠ ['.'] ∧ s ≠ ['.', '.'] := by
    intro s hs
    have := hrall s hs
    unfold normalSeg at this
    simp only [Bool.and_eq_true, decide_eq_true_eq] at this
    exact ⟨this.1.2, this.2⟩
  have hfold : (([] :: splitOnChar '/' rest) ++ ([] :: segs)).foldl normStep []
      = splitOnChar '/' rest ++ segs.filter (fun s => !s.isEmpty) := by
    rw [List.foldl_append]
    have h1 : List.foldl normStep [] ([] :: splitOnChar '/' rest)
        = splitOnChar '/' rest := by
      rw [List.foldl_cons, show normStep [] [] = [] from rfl,
        foldl_normStep_clean _ _ hrdots, List.nil_append, hrfilter]
    rw [h1, List.foldl_cons,
      show normStep (splitOnChar '/' rest) [] = splitOnChar '/' rest from rfl,
      foldl_normStep_clean _ _ hnd]
  have hjp : joinPath (String.mk ('/' :: rest)) ⟨'/' :: List.intercalate ['/'] segs⟩
      = ⟨'/' :: List.intercalate ['/']
          (splitOnChar '/' rest ++ segs.filter (fun s => !s.isEmpty))⟩ := by
    unfold joinPath
    rw [hsplit, hfold]
  rcases hf : segs.filter (fun s => !s.isEmpty) with _ | ⟨f, fs⟩
  · rw [hf, List.append_nil] at hjp
    rw [hrinter] at hjp
    rw [hjp]
    constructor
    · show (('/' :: rest).isPrefixOf ('/' :: rest)) = true
      have hp := isPrefixOf_append ('/' :: rest) []
      rwa [List.append_nil] at hp
    · unfold escapesRootSpec
      simp
  · rw [hf] at hjp
    rw [intercalate_append_ne_nil ['/'] _ _ hrne (by simp)] at hjp
    rw [hrinter] at hjp
    have hdata : (joinPath (String.mk ('/' :: rest)) ⟨'/' :: List.intercalate ['/'] segs⟩).data
        = ('/' :: rest) ++ '/' :: List.intercalate ['/'] (f :: fs) := by
      rw [hjp]
      simp
    constructor
    · show (('/' :: rest).isPrefixOf
        (joinPath (String.mk ('/' :: rest)) ⟨'/' :: List.intercalate ['/'] segs⟩).data) = true
      rw [hdata]
      exact isPrefixOf_append ('/' :: rest) ('/' :: List.intercalate ['/'] (f :: fs))
    · unfold escapesRootSpec
      have hsw : strStartsWith
          (joinPath (String.mk ('/' :: rest)) ⟨'/' :: List.intercalate ['/'] segs⟩)
          (String.mk ('/' :: rest) ++ "/") = true := by
        show ((String.mk ('/' :: rest) ++ "/").data).isPrefixOf
          ((joinPath (String.mk ('/' :: rest)) ⟨'/' :: List.intercalate ['/'] segs⟩).data) = true
        rw [hdata]
        show (('/' :: rest) ++ ['/']).isPrefixOf
          (('/' :: rest) ++ '/' :: List.intercalate ['/'] (f :: fs)) = true
        have : ('/' :: rest) ++ '/' :: List.intercalate ['/'] (f :: fs)
            = (('/' :: rest) ++ ['/']) ++ List.intercalate ['/'] (f :: fs) := by simp
        rw [this]
        exact isPrefixOf_append (('/' :: rest) ++ ['/']) _
      rw [hsw]
      simp

theorem urlSegs_ne_nil (s : List Char) : urlSegs s ≠ [] := by
  unfold urlSegs
  split
  · exact pathStateGo_ne_nil _ _ _
  · exact pathStateGo_ne_nil _ _ _

theorem urlSegs_no_dots (s : List Char) :
    ∀ t ∈ urlSegs s, t ≠ ['.'] ∧ t ≠ ['.', '.'] := by
  unfold urlSegs
  split
  · exact pathStateGo_no_dots _ _ _ (by simp)
  · exact pathStateGo_no_dots _ _ _ (by simp)

theorem urlSegs_no_slash (s : List Char) : ∀ t ∈ urlSegs s, '/' ∉ t := by
  unfold urlSegs
  split
  · exact pathStateGo_no_slash _ _ _ (by simp) (by simp)
  · exact pathStateGo_no_slash _ _ _ (by simp) (by simp)

theorem requestPath_in_root (root url : String) (hroot : rootNormal root = true) :
    strStartsWith (joinPath root (requestPathname url)) root = true ∧
    escapesRootSpec root (joinPath root (requestPathname url)) = false := by
  unfold requestPathname
  by_cases hidx : (⟨urlPathname url.data⟩ : String) = "/"
  · rw [if_pos hidx]
    have heq : ("/index.html" : String)
        = ⟨'/' :: List.intercalate ['/'] [['i', 'n', 'd', 'e', 'x', '.', 'h', 't', 'm', 'l']]⟩ := by
      decide
    rw [heq]
    exact joinPath_segs_in_root root _ hroot (by simp) (by decide) (by decide)
  · rw [if_neg hidx]
    have heq : (⟨urlPathname url.data⟩ : String)
        = ⟨'/' :: List.intercalate ['/'] (urlSegs url.data)⟩ := rfl
    rw [heq]
    exact joinPath_segs_in_root root (urlSegs url.data) hroot
      (urlSegs_ne_nil url.data) (urlSegs_no_dots url.data) (urlSegs_no_slash url.data)

/-- C8 (amended): for every origin-form request to a server whose
document root is a normalized absolute path, the URL parser resolves
dot segments before the `path.join`, so the resolved path always lies
inside the root: the `startsWith` guard always passes, the spec's
"escapes the root" condition never holds (the 403 branch is dead code),
the response is 404 with the HTML fallback page when the resolved path
is absent or not a regular file, and 200 with the file's content and
extension-derived MIME type when it is a regular file. -/
theorem c8_handler_cases (fsys : List (String × FsEntry)) (root url : String)
    (hroot : rootNormal root = true) (_hurl : originForm url.data = true) :
    strStartsWith (joinPath root (requestPathname url)) root = true ∧
    escapesRootSpec root (joinPath root (requestPathname url)) = false ∧
    (handleRequest fsys root url).status ≠ 403 ∧
    (fsLookup fsys (joinPath root (requestPathname url)) = none →
      handleRequest fsys root url
        = ⟨404, "text/html", notFoundPage (requestPathname url)⟩) ∧
    (fsLookup fsys (joinPath root (requestPathname url)) = some FsEntry.dir →
      handleRequest fsys root url
        = ⟨404, "text/html", notFoundPage (requestPathname url)⟩) ∧
    (∀ content,
      fsLookup fsys (joinPath root (requestPathname url)) = some (FsEntry.file content) →
      handleRequest fsys root url
        = ⟨200, getMimeType (joinPath root (requestPathname url)), content⟩) := by
  obtain ⟨hin, hesc⟩ := requestPath_in_root root url hroot
  refine ⟨hin, hesc, ?_, ?_, ?_, ?_⟩
  · unfold handleRequest
    rw [if_neg (by simp [hin])]
    cases hsf : serveFile fsys (joinPath root (requestPathname url)) with
    | none => simp
    | some cm => simp
  · intro hnone
    unfold handleRequest
    rw [if_neg (by simp [hin])]
    simp [serveFile, hnone]
  · intro hdir
    unfold handleRequest
    rw [if_neg (by simp [hin])]
    simp [serveFile, hdir]
  · intro content hfile
    unfold handleRequest
    rw [if_neg (by simp [hin])]
    simp [serveFile, hfile]

/-- C8 counterexample: the URL parser (serve.mjs line 336) resolves dot
segments before the join, so the traversal request `/../../etc/passwd`
reaches the handler as pathname `/etc/passwd`; the resolved path
`/repo/docs/etc/passwd` stays inside the document root (it does not
escape in the spec's sense) and the server answers 404, not the claimed
403.  Likewise `/../docs2/x` resolves to `/repo/docs/docs2/x` inside
the root, never to a sibling directory. -/
theorem c8_traversal_gets_404 :
    (⟨urlPathname "/../../etc/passwd".data⟩ : String) = "/etc/passwd" ∧
    joinPath "/repo/docs" "/etc/passwd" = "/repo/docs/etc/passwd" ∧
    escapesRootSpec "/repo/docs" "/repo/docs/etc/passwd" = false ∧
    (handleRequest [] "/repo/docs" "/../../etc/passwd").status = 404 ∧
    (⟨urlPathname "/../docs2/x".data⟩ : String) = "/docs2/x" ∧
    joinPath "/repo/docs" "/docs2/x" = "/repo/docs/docs2/x" ∧
    (404 : Nat) ≠ 403 := by decide

set_option maxRecDepth 8192 in
/-- C8 witness: the handler-cases theorem applied over the root
`/repo/docs`: the traversal request `/../../etc/passwd` stays in-root
and answers 404 with the fallback page for `/etc/passwd`, a missing
in-root file answers 404, and an existing file answers 200 with its
extension's MIME type. -/
theorem c8_handler_cases_witness :
    handleRequest [] "/repo/docs" "/../../etc/passwd"
      = ⟨404, "text/html", notFoundPage "/etc/passwd"⟩ ∧
    handleRequest [] "/repo/docs" "/missing.html"
      = ⟨404, "text/html", notFoundPage "/missing.html"⟩ ∧
    handleRequest [("/repo/docs/app.js", FsEntry.file "js")] "/repo/docs" "/app.js"
      = ⟨200, "application/javascript", "js"⟩ := by
  refine ⟨?_, ?_, ?_⟩
  · have h := (c8_handler_cases [] "/repo/docs" "/../../etc/passwd"
      (by decide) (by decide)).2.2.2.1 (by decide)
    rw [h]
    decide
  · have h := (c8_handler_cases [] "/repo/docs" "/missing.html"
      (by decide) (by decide)).2.2.2.1 (by decide)
    rw [h]
    decide
  · have h := (c8_handler_cases [("/repo/docs/app.js", FsEntry.file "js")] "/repo/docs"
      "/app.js" (by decide) (by decide)).2.2.2.2.2 "js" (by decide)
    rw [h]
    decide

/-- Auxiliary: a successful build implies every configured collection's
rule directory was enumerated successfully. -/
theorem build_ok_readdirs {lc : String → String → Ordering} {fsys : FileSystem}
    {snap : Snapshot} (h : buildGuidesData lc fsys = .ok snap) :
    ∀ cfg ∈ STACKS, ∃ files, fsys.readdir (rulesDirOf cfg) = .ok files := by
  intro cfg hcfg
  obtain ⟨ls, hmap, _⟩ := buildGuidesData_ok h
  obtain ⟨st, hst⟩ := exceptMapM_ok_forall _ _ _ hmap cfg hcfg
  obtain ⟨raw, hraw, _⟩ := buildStack_ok hst
  obtain ⟨files, hfiles, _⟩ := rawGuides_ok hraw
  exact ⟨files, hfiles⟩

/-- C9: a snapshot value is produced only after every configured
collection's rule directory has been enumerated successfully; and if
enumerating any collection's rule directory fails, the whole build
fails and the previously existing snapshot file is left unchanged (the
single write happens only at the end of a fully successful run). -/
theorem c9_readdir_error_aborts (lc : String → String → Ordering)
    (fsys : FileSystem) (oldFile : Option Snapshot) :
    (∀ snap, buildGuidesData lc fsys = .ok snap →
      ∀ cfg ∈ STACKS, ∃ files, fsys.readdir (rulesDirOf cfg) = .ok files) ∧
    ((∃ cfg ∈ STACKS, ∃ e, fsys.readdir (rulesDirOf cfg) = .error e) →
      exceptIsOk (buildGuidesData lc fsys) = false ∧
      runBuild lc fsys oldFile = oldFile) := by
  refine ⟨fun snap h => build_ok_readdirs h, fun h => ?_⟩
  obtain ⟨cfg, hcfg, e, he⟩ := h
  have hnotok : ∀ snap, buildGuidesData lc fsys ≠ .ok snap := by
    intro snap hok
    obtain ⟨files, hfiles⟩ := build_ok_readdirs hok cfg hcfg
    rw [he] at hfiles
    cases hfiles
  constructor
  · cases hb : buildGuidesData lc fsys with
    | ok snap => exact absurd hb (hnotok snap)
    | error e2 => rfl
  · unfold runBuild
    cases hb : buildGuidesData lc fsys with
    | ok snap => exact absurd hb (hnotok snap)
    | error e2 => rfl

/-- C9 witness: a failing directory enumeration leaves a pre-existing
snapshot file untouched, and a successful build did enumerate the first
configured directory. -/
theorem c9_readdir_error_aborts_witness :
    (exceptIsOk (buildGuidesData eqLocale failingFs) = false ∧
      runBuild eqLocale failingFs (some oldSnapshot) = some oldSnapshot) ∧
    exceptIsOk (oneDocFs.readdir (rulesDirOf
      { id := "typescript", name := "TypeScript", directory := "Typescript",
        icon := "icons/typescript.png",
        summary := "Type-safe JavaScript development",
        focus := "Type safety, code quality, best practices" })) = true := by
  constructor
  · exact (c9_readdir_error_aborts eqLocale failingFs (some oldSnapshot)).2
      ⟨{ id := "typescript", name := "TypeScript", directory := "Typescript",
         icon := "icons/typescript.png",
         summary := "Type-safe JavaScript development",
         focus := "Type safety, code quality, best practices" },
        by decide, "EACCES", rfl⟩
  · obtain ⟨files, hf⟩ := (c9_readdir_error_aborts eqLocale oneDocFs none).1
      oneDocSnap rfl
      { id := "typescript", name := "TypeScript", directory := "Typescript",
        icon := "icons/typescript.png",
        summary := "Type-safe JavaScript development",
        focus := "Type safety, code quality, best practices" }
      (by decide)
    rw [hf]
    rfl

/-- C10: every guide of every collection in a successfully built
snapshot has a file name ending in `.mdc` (only files passing the
`.mdc` filter become guides), hence never `README.md`; consequently the
overview-first branch of the sort comparator is never taken between two
guides of the same collection — the comparator always reduces to the
title comparison. -/
theorem c10_guides_all_mdc (lc : String → String → Ordering) (fsys : FileSystem)
    (snap : Snapshot) (h : buildGuidesData lc fsys = .ok snap) :
    ∀ st ∈ snap.stackList, ∀ g ∈ st.guides,
      (strEndsWith g.fileName ".mdc" = true ∧ g.fileName ≠ "README.md") ∧
      ∀ b ∈ st.guides, guideLe lc g b = decide (lc g.title b.title ≠ Ordering.gt) := by
  intro st hst g hg
  obtain ⟨ls, hmap, hsnap⟩ := buildGuidesData_ok h
  subst hsnap
  obtain ⟨cfg, _, hstok⟩ := exceptMapM_ok_mem _ _ _ hmap st hst
  obtain ⟨raw, hraw, hguides⟩ := buildStack_ok hstok
  obtain ⟨files, _, hmem⟩ := rawGuides_ok hraw
  have hmdc : ∀ a ∈ st.guides, strEndsWith a.fileName ".mdc" = true := by
    intro a ha
    rw [hguides] at ha
    have haraw : a ∈ raw := (List.mergeSort_perm raw (guideLe lc)).mem_iff.mp ha
    obtain ⟨f, hf, content, hcontent⟩ := hmem a haraw
    have hfe : strEndsWith f ".mdc" = true := by
      have := List.mem_filter.mp hf
      simpa using this.2
    rw [hcontent]
    exact hfe
  have hR : ∀ a ∈ st.guides, a.fileName ≠ "README.md" := by
    intro a ha heq
    have hmdca := hmdc a ha
    rw [heq] at hmdca
    exact absurd hmdca (by decide)
  refine ⟨⟨hmdc g hg, hR g hg⟩, fun b hb => ?_⟩
  unfold guideLe
  rw [if_neg (hR g hg), if_neg (hR b hb)]

/-- C10 witness: the `.mdc`-only invariant read off a concrete built
snapshot. -/
theorem c10_guides_all_mdc_witness :
    strEndsWith oneDocGuide.fileName ".mdc" = true ∧
    oneDocGuide.fileName ≠ "README.md" :=
  (c10_guides_all_mdc eqLocale oneDocFs oneDocSnap rfl oneDocStack
    (by rw [show oneDocSnap.stackList = oneDocStack :: oneDocSnap.stackList.tail from rfl]
        exact List.mem_cons_self _ _)
    oneDocGuide
    (by
      have hg : oneDocStack.guides = [oneDocGuide] := by
        show sortGuides eqLocale [oneDocGuide] = [oneDocGuide]
        simp [sortGuides, List.mergeSort]
      rw [hg]
      exact List.mem_cons_self _ _)).1
